import Mathlib

/-!
Shallow embedding of the cloud-init-builder expansion core (main.go):
`processFile` / `processIncludePath`, together with the helpers that
main.go uses from Go's standard library (bufio.ScanLines, strings.TrimSpace,
strings.TrimSuffix, strings.TrimRight, strings.Index, filepath.Join,
filepath.Dir, filepath.Rel, filepath.Walk).

Text is modelled as `List Char`; a path is a list of components below a
virtual filesystem root; the filesystem is a finite tree.  The mutual
recursion of the Go source is made total with an explicit fuel counter:
running out of fuel yields the distinguished error `PErr.fuelOut`, so
non-termination of the source shows up as `fuelOut` for every fuel value.
-/

abbrev Str := List Char

abbrev FPath := List Str

/-- Go `unicode.IsSpace` restricted to the ASCII whitespace characters. -/
def goIsSpace (c : Char) : Bool :=
  c == ' ' || c == '\t' || c == '\n' || c == '\x0b' || c == '\x0c' || c == '\r'

/-- The `dropCR` step of Go `bufio.ScanLines`: drop one terminal carriage return. -/
def dropCR (l : Str) : Str :=
  if l.getLast? == some '\r' then l.dropLast else l

/-- Split a character list at every occurrence of `sep`, keeping empty segments
(the raw splitting underlying `bufio.ScanLines` and `strings.Split`). -/
def rawSplitOn (sep : Char) : Str → List Str
  | [] => [[]]
  | c :: rest =>
    if c = sep then [] :: rawSplitOn sep rest
    else
      match rawSplitOn sep rest with
      | [] => [[c]]
      | h :: t => (c :: h) :: t

/-- Go `bufio.Scanner` with `bufio.ScanLines`: split at newlines, drop the
empty residual token after a final newline, and strip one trailing `\r`
from every token. -/
def splitLinesGo (s : Str) : List Str :=
  let parts := rawSplitOn '\n' s
  let parts2 := if parts.getLast? == some [] then parts.dropLast else parts
  parts2.map dropCR

/-- Join lines, terminating every line with a newline (the per-line
`output.WriteString(line + "\n")` of main.go, iterated). -/
def joinLinesNL : List Str → Str
  | [] => []
  | l :: ls => l ++ '\n' :: joinLinesNL ls

/-- Go `strings.TrimSuffix(s, "\n")`. -/
def trimSuffixNL (s : Str) : Str :=
  if s.getLast? == some '\n' then s.dropLast else s

/-- Go `strings.TrimRight(s, "\n")`. -/
def trimRightNL (s : Str) : Str :=
  (s.reverse.dropWhile (fun c => c == '\n')).reverse

/-- Go `strings.TrimSpace`. -/
def goTrimSpaceL (s : Str) : Str :=
  ((s.dropWhile goIsSpace).reverse.dropWhile goIsSpace).reverse

/-- Go `strings.HasPrefix`. -/
def startsWithL (pre s : Str) : Bool :=
  pre.isPrefixOf s

/-- Go `strings.TrimPrefix`. -/
def trimPrefixL (pre s : Str) : Str :=
  if pre.isPrefixOf s then s.drop pre.length else s

/-- Go `strings.Index(s, c)` for a one-character needle: first index, `-1` if absent. -/
def goIndexOf (s : Str) (c : Char) : Int :=
  match s.findIdx? (fun d => d == c) with
  | some n => (n : Int)
  | none => -1

/-- The directive marker `#include:` of main.go. -/
def includeMarker : Str := "#include:".toList

/-- The directive test of main.go line 48: the trimmed line starts with `#include:`. -/
def isDirectiveLine (line : Str) : Bool :=
  startsWithL includeMarker (goTrimSpaceL line)

/-- The indentation capture of main.go line 51: `line[:strings.Index(line, "#")]`. -/
def captureIndent (line : Str) : Str :=
  line.take (goIndexOf line '#').toNat

/-- A filesystem tree: regular files with content, and directories. -/
inductive FSTree where
  | file (content : Str)
  | dir (entries : List (Str × FSTree))

/-- Byte-wise lexicographic order on names, as used by `filepath.Walk`
(which sorts directory entries). -/
def strLe : Str → Str → Bool
  | [], _ => true
  | _ :: _, [] => false
  | x :: xs, y :: ys => if x = y then strLe xs ys else decide (x < y)

/-- Insertion step for sorting directory entries by name. -/
def insertEnt (e : Str × FSTree) : List (Str × FSTree) → List (Str × FSTree)
  | [] => [e]
  | f :: rest => if strLe e.1 f.1 then e :: f :: rest else f :: insertEnt e rest

/-- Sort directory entries by name (the lexical order of `filepath.Walk`). -/
def sortEnt : List (Str × FSTree) → List (Str × FSTree)
  | [] => []
  | e :: rest => insertEnt e (sortEnt rest)

/-- Look a path up in the filesystem (the `os.Stat` / `os.Open` view). -/
def lookupFS : FSTree → FPath → Option FSTree
  | t, [] => some t
  | .file _, _ :: _ => none
  | .dir es, n :: rest =>
    match es.find? (fun e => e.1 == n) with
    | some e => lookupFS e.2 rest
    | none => none

mutual

/-- Sort every directory level of a tree by entry name.  `filepath.Walk`
(main.go line 119) sorts each directory's entries as it descends; hoisting
the per-directory sort into this pre-pass yields the identical traversal
order, since names and structure are untouched. -/
def normFS : FSTree → FSTree
  | .file c => .file c
  | .dir es => .dir (sortEnt (normEnts es))

/-- `normFS` mapped over an entry list. -/
def normEnts : List (Str × FSTree) → List (Str × FSTree)
  | [] => []
  | e :: rest => (e.1, normFS e.2) :: normEnts rest

end

mutual

/-- Number of nodes of a tree (induction measure). -/
def fsSize : FSTree → Nat
  | .file _ => 1
  | .dir es => entsSize es + 1

/-- Node count of an entry list. -/
def entsSize : List (Str × FSTree) → Nat
  | [] => 0
  | e :: rest => fsSize e.2 + entsSize rest

end

mutual

/-- All file paths of a subtree in raw (unsorted) structural order —
the reference enumeration used to state that the walk visits every
regular file exactly once. -/
def allFilesRaw : FSTree → FPath → List FPath
  | .file _, p => [p]
  | .dir es, p => allFilesList es p

/-- Raw enumeration over an entry list. -/
def allFilesList : List (Str × FSTree) → FPath → List FPath
  | [], _ => []
  | e :: rest, p => allFilesRaw e.2 (p ++ [e.1]) ++ allFilesList rest p

end

/-- The file paths `filepath.Walk` feeds to `processFile`, in walk order:
depth-first with every directory's entries in lexical name order. -/
def walkCollect (t : FSTree) (p : FPath) : List FPath :=
  allFilesRaw (normFS t) p

/-- Errors of the expansion core.  Constructors mirror the `fmt.Errorf`
wrappings of main.go; `fuelOut` is the fuel-exhaustion marker of the model;
`slicePanicked` models the panic a negative `strings.Index` result would
cause in `line[:index]`. -/
inductive PErr where
  | fuelOut
  | slicePanicked (filePath : FPath)
  | openFail (filePath : FPath)
  | readFail (filePath : FPath)
  | statFail (path : FPath)
  | includeFail (target : Str) (inFile : FPath) (cause : PErr)
  | walkFail (entry : FPath) (cause : PErr)
deriving DecidableEq

/-- A Go `(string, error)` pair as returned by `processFile` and
`processIncludePath`: on every error path the text component is `""`. -/
abbrev PRes := Str × Option PErr

/-- Does a slice panic occur anywhere in an error chain? -/
def errSlice : PErr → Bool
  | .slicePanicked _ => true
  | .includeFail _ _ c => errSlice c
  | .walkFail _ c => errSlice c
  | _ => false

/-- `filepath.Join` of a base directory and a (slash-separated) relative
target, including the `filepath.Clean` processing of `.`, `..` and empty
components. -/
def goJoin (base : FPath) (target : Str) : FPath :=
  (rawSplitOn '/' target).foldl
    (fun acc c =>
      if c = [] then acc
      else if c = ['.'] then acc
      else if c = ['.', '.'] then acc.dropLast
      else acc ++ [c])
    base

/-- `filepath.Rel(base, target)` on the model's component paths. -/
def relComps : FPath → FPath → FPath
  | [], ts => ts
  | b :: bs, t :: ts =>
    if b = t then relComps bs ts
    else List.replicate (bs.length + 1) ['.', '.'] ++ (t :: ts)
  | bs, [] => List.replicate bs.length ['.', '.']

/-- Render a component path with forward slashes (`filepath.ToSlash` of the
relative path); the empty relative path renders as `.` as in Go. -/
def renderPath : FPath → Str
  | [] => ['.']
  | [c] => c
  | c :: rest => c ++ '/' :: renderPath rest

/-- The `# START <rel>\n` marker line of main.go line 39. -/
def markerStartLine (rel : FPath) : Str :=
  "# START ".toList ++ renderPath rel ++ ['\n']

/-- The `\n# END <rel>\n` tail of main.go line 101. -/
def markerEndTail (rel : FPath) : Str :=
  "\n# END ".toList ++ renderPath rel ++ ['\n']

/-- The re-indentation step of main.go lines 74–82: strip one trailing
newline, and if the result is nonempty re-emit every scanned line prefixed
with the captured indentation. -/
def indentContent (ind : Str) (content : Str) : Str :=
  let c := trimSuffixNL content
  if c = [] then []
  else joinLinesNL ((splitLinesGo c).map (fun l => ind ++ l))

/-- The per-line loop of main.go lines 44–89, parameterised by the include
resolver `pip` (the recursive call at one fuel level lower).  On the first
error the accumulated text is discarded and `("", err)` is returned, exactly
as the early `return "", ...` of the source. -/
def processLines (pip : FPath → PRes) (filePath : FPath) : List Str → PRes
  | [] => ([], none)
  | line :: rest =>
    let trimmedLine := goTrimSpaceL line
    if startsWithL includeMarker trimmedLine then
      if goIndexOf line '#' < 0 then ([], some (.slicePanicked filePath))
      else
        let indentation := captureIndent line
        let includePathStr := goTrimSpaceL (trimPrefixL includeMarker trimmedLine)
        if includePathStr = [] then processLines pip filePath rest
        else
          let fullIncludePath := goJoin filePath.dropLast includePathStr
          match pip fullIncludePath with
          | (_, some e) => ([], some (.includeFail includePathStr filePath e))
          | (includedContent, none) =>
            match processLines pip filePath rest with
            | (_, some e2) => ([], some e2)
            | (restOut, none) =>
              (indentContent indentation includedContent ++ '\n' :: restOut, none)
    else
      match processLines pip filePath rest with
      | (_, some e2) => ([], some e2)
      | (restOut, none) => (line ++ '\n' :: restOut, none)

/-- The body of `processFile` (main.go lines 15–105), parameterised by the
include resolver. -/
def processFileCore (pip : FPath → PRes) (fs : FSTree) (filePath rootDir : FPath)
    (isRoot : Bool) : PRes :=
  match lookupFS fs filePath with
  | none => ([], some (.openFail filePath))
  | some (.dir _) => ([], some (.readFail filePath))
  | some (.file content) =>
    let relativePath := relComps rootDir filePath
    let header := if isRoot then [] else markerStartLine relativePath
    match processLines pip filePath (splitLinesGo content) with
    | (_, some e) => ([], some e)
    | (body, none) =>
      let finalResult := header ++ body
      if isRoot then (finalResult, none)
      else (trimRightNL finalResult ++ markerEndTail relativePath, none)

/-- The walk loop of main.go lines 119–133, parameterised by the recursive
`processFile` call: expand every walked file, concatenate, first error wins
and discards all output. -/
def processWalk (pf : FPath → PRes) : List FPath → PRes
  | [] => ([], none)
  | p :: rest =>
    match pf p with
    | (_, some e) => ([], some (.walkFail p e))
    | (c, none) =>
      match processWalk pf rest with
      | (_, some e2) => ([], some e2)
      | (restOut, none) => (c ++ restOut, none)

/-- The body of `processIncludePath` (main.go lines 109–142), parameterised by
the recursive `processFile` call. -/
def processIncludePathCore (pf : FPath → PRes) (fs : FSTree) (path : FPath) : PRes :=
  match lookupFS fs path with
  | none => ([], some (.statFail path))
  | some (.dir es) => processWalk pf (walkCollect (.dir es) path)
  | some (.file _) => pf path

/-- `processFile` of main.go, with fuel: one fuel unit is consumed per
`processFile` stack frame, so an include cycle exhausts any finite fuel. -/
def processFile (fs : FSTree) : Nat → FPath → FPath → Bool → PRes
  | 0, _, _, _ => ([], some .fuelOut)
  | fuel + 1, filePath, rootDir, isRoot =>
    processFileCore
      (fun p =>
        processIncludePathCore (fun q => processFile fs fuel q rootDir false) fs p)
      fs filePath rootDir isRoot

/-- `processIncludePath` of main.go, with fuel. -/
def processIncludePath (fs : FSTree) (fuel : Nat) (path rootDir : FPath) : PRes :=
  processIncludePathCore (fun q => processFile fs fuel q rootDir false) fs path

/-- The hard-coded root template name of main.go line 166. -/
def rootTemplateName : Str := "cloud-init.tmpl.yaml".toList

/-- The observable behaviour of `main` (main.go lines 144–179): validate that
the argument is a directory and the root template exists, expand, and print
the result to stdout only on success.  `none` means a fatal exit with nothing
on stdout. -/
def mainRun (fs : FSTree) (rootDir : FPath) (fuel : Nat) : Option Str :=
  match lookupFS fs rootDir with
  | some (.dir _) =>
    let initialFilePath := rootDir ++ [rootTemplateName]
    match lookupFS fs initialFilePath with
    | none => none
    | some _ =>
      match processFile fs fuel initialFilePath rootDir true with
      | (_, some _) => none
      | (t, none) => some t
  | _ => none

mutual

/-- Well-formed filesystem: file contents contain no carriage returns and
names contain neither newlines nor carriage returns (true of the text
filesystems the tool is designed for). -/
def fsWF : FSTree → Bool
  | .file c => c.all (fun ch => ch != '\r')
  | .dir es => entsWF es

/-- `fsWF` over an entry list. -/
def entsWF : List (Str × FSTree) → Bool
  | [] => true
  | e :: rest =>
    e.1.all (fun ch => ch != '\n' && ch != '\r') && fsWF e.2 && entsWF rest

end

mutual

/-- Every scanned input line of every file in the tree. -/
def fsAllLines : FSTree → List Str
  | .file c => splitLinesGo c
  | .dir es => entsAllLines es

/-- `fsAllLines` over an entry list. -/
def entsAllLines : List (Str × FSTree) → List Str
  | [] => []
  | e :: rest => fsAllLines e.2 ++ entsAllLines rest

end

/-- The `# START ` prefix of a start marker line. -/
def startMarkPre : Str := "# START ".toList

/-- The `# END ` prefix of an end marker line. -/
def endMarkPre : Str := "# END ".toList

/-- Provenance of an output line: an input line of the tree, a marker
line, or an empty separator line, each allowing an accumulated whitespace
indentation prefix. -/
def provLine (fs : FSTree) (l : Str) : Prop :=
  ∃ ind core, l = ind ++ core ∧ ind.all goIsSpace = true ∧
    (core ∈ fsAllLines fs ∨
      (∃ p, core = startMarkPre ++ p ∨ core = endMarkPre ++ p) ∨
      core = [])

/-- A well-formed output line: it has a provenance, and contains no
carriage return and no newline. -/
def lineOK (fs : FSTree) (l : Str) : Prop :=
  provLine fs l ∧ '\r' ∉ l ∧ '\n' ∉ l

/-- `l` is an input line of the tree, allowing an added whitespace
indentation prefix (the generous reading of "corresponds to an input
line" used to test the line-accounting claim on concrete input). -/
def isIndentedInputLine (fs : FSTree) (l : Str) : Bool :=
  (fsAllLines fs).any (fun m =>
    m.length ≤ l.length &&
    l.drop (l.length - m.length) == m &&
    (l.take (l.length - m.length)).all goIsSpace)

/-- `l` is a marker line, allowing an added whitespace indentation prefix. -/
def isMarkerLine (l : Str) : Bool :=
  startsWithL startMarkPre (l.dropWhile goIsSpace) ||
  startsWithL endMarkPre (l.dropWhile goIsSpace)

/-- The line-accounting claim, decided on a concrete run: every output line
is an (indented) input line or an (indented) marker line. -/
def linesAccounted (fs : FSTree) (out : Str) : Bool :=
  (splitLinesGo out).all (fun l => isIndentedInputLine fs l || isMarkerLine l)

/-- Concrete tree for the single-file include example: the root file holds
one two-space-indented directive and `foo.txt` holds the lines `a`, `b`. -/
def exIncludeFS : FSTree :=
  .dir [(['r'], .file "  #include: foo.txt\n".toList),
        ("foo.txt".toList, .file "a\nb\n".toList)]

/-- Concrete tree with a self-including file. -/
def cycleFS : FSTree :=
  .dir [("a.txt".toList, .file "#include: a.txt\n".toList)]

/-- Concrete tree for the line-accounting counterexample: a plain line plus
one directive whose target holds a single line. -/
def exAccountFS : FSTree :=
  .dir [(['r'], .file "x\n#include: f.txt\n".toList),
        ("f.txt".toList, .file "a\n".toList)]

/-- Concrete tree whose root file content does not end in a newline. -/
def exNoFinalNL : FSTree := .dir [(['t'], .file ['a'])]

/-- Concrete tree holding a plain two-line file without directives. -/
def exPlainFS : FSTree := .dir [(['t'], .file "x\ny\n".toList)]

/-- Concrete tree holding an empty file. -/
def exEmptyFS : FSTree := .dir [(['e'], .file [])]

/-- Concrete tree holding a plain one-line file without directives. -/
def exPlain2FS : FSTree := .dir [(['u'], .file "z\n".toList)]

/-- Concrete tree with a directive whose target does not exist. -/
def exMissingFS : FSTree :=
  .dir [("cloud-init.tmpl.yaml".toList, .file "#include: nope\n".toList)]

/-- Entry list of a two-file directory. -/
def exDirEntries : List (Str × FSTree) :=
  [("b.txt".toList, .file "B\n".toList), ("a.txt".toList, .file "A\n".toList)]

/-- A tree holding the two-file directory in one enumeration order. -/
def exWalkFS1 : FSTree :=
  .dir [(['r'], .file "#include: d\n".toList), (['d'], .dir exDirEntries)]

/-- The same filesystem with both directory levels enumerated in the
opposite order. -/
def exWalkFS2 : FSTree :=
  .dir [(['d'], .dir exDirEntries.reverse), (['r'], .file "#include: d\n".toList)]

/-- The three-file chain used for the additive-indentation claim: the root
file includes `b` behind indentation `ind1`, `b` includes `c` behind
indentation `ind2`, and `c` holds arbitrary content `cc`. -/
def chainFS (ind1 ind2 cc : Str) : FSTree :=
  .dir [(['r'], .file (ind1 ++ "#include: b\n".toList)),
        (['b'], .file (ind2 ++ "#include: c\n".toList)),
        (['c'], .file cc)]

/-! ## Basic facts about the line splitter and joiner -/

/-! ## Basic facts about the line splitter and joiner -/

theorem rawSplitOn_ne_nil (sep : Char) (s : Str) : rawSplitOn sep s ≠ [] := by
  induction s with
  | nil => simp [rawSplitOn]
  | cons c rest ih =>
    by_cases h : c = sep
    · simp [rawSplitOn, h]
    · rcases hr : rawSplitOn sep rest with _ | ⟨a, b⟩
      · exact absurd hr ih
      · simp [rawSplitOn, h, hr]

theorem rawSplitOn_cons_ne (sep c : Char) (s : Str) (a : Str) (b : List Str)
    (h : c ≠ sep) (hr : rawSplitOn sep s = a :: b) :
    rawSplitOn sep (c :: s) = (c :: a) :: b := by
  simp [rawSplitOn, h, hr]

theorem not_mem_of_mem_rawSplitOn (sep : Char) (s : Str) :
    ∀ part ∈ rawSplitOn sep s, sep ∉ part := by
  induction s with
  | nil =>
    intro part hp
    simp only [rawSplitOn, List.mem_singleton] at hp
    simp [hp]
  | cons c rest ih =>
    intro part hp
    by_cases h : c = sep
    · simp only [rawSplitOn, if_pos h, List.mem_cons] at hp
      rcases hp with hp | hp
      · simp [hp]
      · exact ih part hp
    · rcases hr : rawSplitOn sep rest with _ | ⟨a, b⟩
      · exact absurd hr (rawSplitOn_ne_nil sep rest)
      · rw [rawSplitOn_cons_ne sep c rest a b h hr] at hp
        rcases List.mem_cons.mp hp with hp | hp
        · subst hp
          intro hmem
          rcases List.mem_cons.mp hmem with h1 | h1
          · exact h h1.symm
          · exact ih a (hr ▸ List.mem_cons_self a b) h1
        · exact ih part (hr ▸ List.mem_cons_of_mem a hp)

theorem rawSplitOn_sep_cons (sep : Char) (u t : Str) (hu : sep ∉ u) :
    rawSplitOn sep (u ++ sep :: t) = u :: rawSplitOn sep t := by
  induction u with
  | nil => simp [rawSplitOn]
  | cons c u' ih =>
    have hc : c ≠ sep := fun h => hu (h ▸ List.mem_cons_self c u')
    have hu' : sep ∉ u' := fun h => hu (List.mem_cons_of_mem c h)
    rcases hr : rawSplitOn sep (u' ++ sep :: t) with _ | ⟨a, b⟩
    · exact absurd hr (rawSplitOn_ne_nil sep _)
    · rw [List.cons_append, rawSplitOn_cons_ne sep c _ a b hc hr]
      rw [ih hu'] at hr
      injection hr with h1 h2
      rw [h1, h2]

theorem rawSplitOn_append_sep (sep : Char) (u t : Str) :
    rawSplitOn sep (u ++ sep :: t) = rawSplitOn sep u ++ rawSplitOn sep t := by
  induction u with
  | nil => simp [rawSplitOn]
  | cons c u' ih =>
    by_cases h : c = sep
    · subst h
      rw [List.cons_append]
      rcases hr : rawSplitOn c u' with _ | ⟨a, b⟩
      · exact absurd hr (rawSplitOn_ne_nil c u')
      · simp [rawSplitOn, hr, ih]
    · rcases hr : rawSplitOn sep (u' ++ sep :: t) with _ | ⟨a, b⟩
      · exact absurd hr (rawSplitOn_ne_nil sep _)
      · rw [List.cons_append, rawSplitOn_cons_ne sep c _ a b h hr]
        rcases hr2 : rawSplitOn sep u' with _ | ⟨a2, b2⟩
        · exact absurd hr2 (rawSplitOn_ne_nil sep u')
        · rw [rawSplitOn_cons_ne sep c u' a2 b2 h hr2]
          rw [ih, hr2] at hr
          rw [List.cons_append] at hr ⊢
          injection hr with h1 h2
          rw [h1, h2]

theorem dropCR_of_getLast (l : Str) (h : l.getLast? ≠ some '\r') : dropCR l = l := by
  unfold dropCR
  rw [if_neg]
  simp only [beq_iff_eq]
  exact h

theorem dropCR_of_not_mem (l : Str) (h : '\r' ∉ l) : dropCR l = l := by
  apply dropCR_of_getLast
  intro hc
  exact h (List.mem_of_getLast?_eq_some hc)

theorem joinLinesNL_append (ls1 ls2 : List Str) :
    joinLinesNL (ls1 ++ ls2) = joinLinesNL ls1 ++ joinLinesNL ls2 := by
  induction ls1 with
  | nil => simp [joinLinesNL]
  | cons l ls ih => simp [joinLinesNL, ih]

theorem joinLinesNL_ne_nil (l : Str) (ls : List Str) : joinLinesNL (l :: ls) ≠ [] := by
  simp only [joinLinesNL]
  intro h
  have := congrArg List.length h
  simp at this

theorem joinLinesNL_getLast (ls : List Str) (h : ls ≠ []) :
    (joinLinesNL ls).getLast? = some '\n' := by
  induction ls with
  | nil => exact absurd rfl h
  | cons l ls ih =>
    cases ls with
    | nil =>
      show (l ++ ['\n']).getLast? = some '\n'
      simp
    | cons m ms =>
      show (l ++ '\n' :: joinLinesNL (m :: ms)).getLast? = some '\n'
      have h2 : ('\n' :: joinLinesNL (m :: ms)) = ['\n'] ++ joinLinesNL (m :: ms) := rfl
      rw [List.getLast?_append, h2, List.getLast?_append, ih (by simp)]
      rfl

theorem splitLinesGo_nil : splitLinesGo [] = [] := by decide

theorem rawSplitOn_concat_sep (sep : Char) (u : Str) :
    rawSplitOn sep (u ++ [sep]) = rawSplitOn sep u ++ [[]] := by
  have := rawSplitOn_append_sep sep u []
  simpa [rawSplitOn] using this

theorem mem_splitLinesGo_not_nl (s : Str) : ∀ l ∈ splitLinesGo s, '\n' ∉ l := by
  intro l hl
  simp only [splitLinesGo, List.mem_map] at hl
  obtain ⟨part, hpart, hdrop⟩ := hl
  have hmem : part ∈ rawSplitOn '\n' s := by
    by_cases h : (rawSplitOn '\n' s).getLast? == some []
    · rw [if_pos h] at hpart
      exact List.dropLast_subset _ hpart
    · rw [if_neg h] at hpart
      exact hpart
  have hnot := not_mem_of_mem_rawSplitOn '\n' s part hmem
  subst hdrop
  unfold dropCR
  by_cases h2 : part.getLast? == some '\r'
  · rw [if_pos h2]
    intro hc
    exact hnot (List.dropLast_subset _ hc)
  · rw [if_neg h2]
    exact hnot

theorem splitLinesGo_joinLinesNL (ls : List Str)
    (h : ∀ l ∈ ls, '\n' ∉ l ∧ l.getLast? ≠ some '\r') :
    splitLinesGo (joinLinesNL ls) = ls := by
  have hparts : rawSplitOn '\n' (joinLinesNL ls) = ls ++ [[]] := by
    induction ls with
    | nil => simp [joinLinesNL, rawSplitOn]
    | cons l rest ih =>
      show rawSplitOn '\n' (l ++ '\n' :: joinLinesNL rest) = (l :: rest) ++ [[]]
      rw [rawSplitOn_sep_cons '\n' l _ (h l (List.mem_cons_self l rest)).1]
      rw [ih (fun m hm => h m (List.mem_cons_of_mem l hm))]
      simp
  unfold splitLinesGo
  rw [hparts]
  simp only [List.getLast?_concat]
  rw [if_pos (by simp), List.dropLast_concat]
  have hid : ∀ l ∈ ls, dropCR l = id l := fun l hl => dropCR_of_getLast l (h l hl).2
  rw [List.map_congr_left hid, List.map_id]

theorem splitLinesGo_eq_of_concat_nl (u : Str) :
    splitLinesGo (u ++ ['\n']) = (rawSplitOn '\n' u).map dropCR := by
  unfold splitLinesGo
  rw [rawSplitOn_concat_sep]
  simp only [List.getLast?_concat]
  rw [if_pos (by simp), List.dropLast_concat]

theorem splitLinesGo_append (s t : Str) (hs : s = [] ∨ s.getLast? = some '\n') :
    splitLinesGo (s ++ t) = splitLinesGo s ++ splitLinesGo t := by
  rcases hs with hs | hs
  · subst hs; simp [splitLinesGo_nil]
  · obtain ⟨u, rfl⟩ := List.getLast?_eq_some_iff.mp hs
    rw [splitLinesGo_eq_of_concat_nl]
    rw [List.append_assoc, List.singleton_append]
    simp only [splitLinesGo]
    rw [rawSplitOn_append_sep]
    have htne : rawSplitOn '\n' t ≠ [] := rawSplitOn_ne_nil '\n' t
    obtain ⟨x, hx⟩ : ∃ x, (rawSplitOn '\n' t).getLast? = some x := by
      cases hxx : (rawSplitOn '\n' t).getLast? with
      | none => exact absurd (List.getLast?_eq_none_iff.mp hxx) htne
      | some y => exact ⟨y, rfl⟩
    have hlast : (rawSplitOn '\n' u ++ rawSplitOn '\n' t).getLast? = some x := by
      rw [List.getLast?_append, hx]; rfl
    by_cases hxe : x = []
    · subst hxe
      rw [hlast, hx]
      rw [if_pos (by simp), if_pos (by simp)]
      rw [List.dropLast_append_of_ne_nil _ htne, List.map_append]
    · rw [hlast, hx]
      rw [if_neg (by simp [hxe]), if_neg (by simp [hxe]), List.map_append]

theorem mem_splitLinesGo_trimSuffixNL (s : Str) (l : Str)
    (hl : l ∈ splitLinesGo (trimSuffixNL s)) : l ∈ splitLinesGo s := by
  unfold trimSuffixNL at hl
  by_cases h : s.getLast? == some '\n'
  · rw [if_pos h] at hl
    have h2 : s.getLast? = some '\n' := by simpa using h
    obtain ⟨u, rfl⟩ := List.getLast?_eq_some_iff.mp h2
    rw [List.dropLast_concat] at hl
    rw [splitLinesGo_eq_of_concat_nl]
    simp only [splitLinesGo] at hl
    by_cases hc : (rawSplitOn '\n' u).getLast? == some []
    · rw [if_pos hc] at hl
      simp only [List.mem_map] at hl ⊢
      obtain ⟨part, hp, hd⟩ := hl
      exact ⟨part, List.dropLast_subset _ hp, hd⟩
    · rw [if_neg hc] at hl
      exact hl
  · rw [if_neg h] at hl
    exact hl

theorem trimRightNL_spec (s : Str) :
    ∃ m, s = trimRightNL s ++ List.replicate m '\n' := by
  have hsplit := List.takeWhile_append_dropWhile (p := fun c => c == '\n') (l := s.reverse)
  have hs : s = (s.reverse.dropWhile (fun c => c == '\n')).reverse ++
      (s.reverse.takeWhile (fun c => c == '\n')).reverse := by
    conv_lhs => rw [← List.reverse_reverse s, ← hsplit]
    rw [List.reverse_append]
  refine ⟨(s.reverse.takeWhile (fun c => c == '\n')).length, ?_⟩
  have hrep : s.reverse.takeWhile (fun c => c == '\n') =
      List.replicate (s.reverse.takeWhile (fun c => c == '\n')).length '\n' := by
    apply List.eq_replicate_of_mem
    intro b hb
    have := List.mem_takeWhile_imp hb
    simpa using this
  calc s = (s.reverse.dropWhile (fun c => c == '\n')).reverse ++
          (s.reverse.takeWhile (fun c => c == '\n')).reverse := hs
    _ = trimRightNL s ++ (s.reverse.takeWhile (fun c => c == '\n')).reverse := rfl
    _ = trimRightNL s ++ List.replicate (s.reverse.takeWhile (fun c => c == '\n')).length '\n' := by
        rw [hrep]; simp

theorem trimRightNL_getLast (s : Str) : (trimRightNL s).getLast? ≠ some '\n' := by
  unfold trimRightNL
  rw [List.getLast?_reverse]
  have := List.head?_dropWhile_not (fun c => c == '\n') s.reverse
  intro hc
  rw [hc] at this
  simp at this

/-! ## Whitespace, trimming and the indentation capture -/

theorem startsWithL_iff (pre s : Str) : startsWithL pre s = true ↔ ∃ t, s = pre ++ t := by
  unfold startsWithL
  induction pre generalizing s with
  | nil => simp [List.isPrefixOf]
  | cons a as ih =>
    cases s with
    | nil =>
      simp only [List.isPrefixOf]
      constructor
      · intro h; exact absurd h (by simp)
      · rintro ⟨t, ht⟩; exact absurd ht (by simp)
    | cons b bs =>
      simp only [List.isPrefixOf, Bool.and_eq_true, beq_iff_eq]
      rw [ih bs]
      constructor
      · rintro ⟨rfl, t, rfl⟩; exact ⟨t, rfl⟩
      · rintro ⟨t, ht⟩
        injection ht with h1 h2
        exact ⟨h1.symm, t, h2⟩

theorem goTrimSpaceL_ws_append (ind s : Str) (h : ind.all goIsSpace = true) :
    goTrimSpaceL (ind ++ s) = goTrimSpaceL s := by
  unfold goTrimSpaceL
  rw [List.dropWhile_append_of_pos]
  intro a ha
  exact List.all_eq_true.mp h a ha

theorem goTrimSpaceL_head (line : Str) (h : goTrimSpaceL line ≠ []) :
    (goTrimSpaceL line).head? = (line.dropWhile goIsSpace).head? := by
  unfold goTrimSpaceL at h ⊢
  obtain ⟨pre, hpre⟩ :=
    List.dropWhile_suffix (l := (line.dropWhile goIsSpace).reverse) (fun c => goIsSpace c)
  have hd : line.dropWhile goIsSpace =
      ((line.dropWhile goIsSpace).reverse.dropWhile goIsSpace).reverse ++ pre.reverse := by
    conv_lhs => rw [← List.reverse_reverse (line.dropWhile goIsSpace), ← hpre]
    rw [List.reverse_append]
  conv_rhs => rw [hd]
  rw [List.head?_append]
  cases hh : ((line.dropWhile goIsSpace).reverse.dropWhile goIsSpace).reverse with
  | nil => exact absurd hh h
  | cons x xs => simp [hh]

theorem findIdx_ws_hash (pre rest : Str) (hpre : pre.all goIsSpace = true)
    (hrest : rest.head? = some '#') :
    List.findIdx? (fun d => d == '#') (pre ++ rest) = some pre.length := by
  induction pre with
  | nil =>
    cases rest with
    | nil => simp at hrest
    | cons r rs =>
      injection hrest with h1
      subst h1
      simp [List.findIdx?_cons]
  | cons c cs ih =>
    have hc : goIsSpace c = true := by
      have := List.all_eq_true.mp hpre c (List.mem_cons_self c cs)
      exact this
    have hcs : cs.all goIsSpace = true := by
      rw [List.all_eq_true]
      intro x hx
      exact List.all_eq_true.mp hpre x (List.mem_cons_of_mem c hx)
    have hne : (c == '#') = false := by
      by_cases h : c = '#'
      · subst h
        exact absurd hc (by decide)
      · simp [h]
    rw [List.cons_append, List.findIdx?_cons, hne]
    simp only [Bool.false_eq_true, if_false]
    rw [List.findIdx?_succ, ih hcs]
    rfl

theorem line_eq_takeWhile_dropWhile (line : Str) :
    line = line.takeWhile goIsSpace ++ line.dropWhile goIsSpace :=
  (List.takeWhile_append_dropWhile goIsSpace line).symm

theorem directive_head_hash (line : Str) (h : isDirectiveLine line = true) :
    (line.dropWhile goIsSpace).head? = some '#' := by
  unfold isDirectiveLine at h
  obtain ⟨t, ht⟩ := (startsWithL_iff includeMarker (goTrimSpaceL line)).mp h
  have hne : goTrimSpaceL line ≠ [] := by
    rw [ht]
    intro hc
    have := congrArg List.length hc
    simp [includeMarker] at this
  have hhead : (goTrimSpaceL line).head? = some '#' := by
    rw [ht]
    rfl
  rw [← goTrimSpaceL_head line hne, hhead]

theorem directive_capture (line : Str) (h : isDirectiveLine line = true) :
    0 ≤ goIndexOf line '#' ∧ captureIndent line = line.takeWhile goIsSpace ∧
      (captureIndent line).all goIsSpace = true := by
  have hhash := directive_head_hash line h
  have hfind : List.findIdx? (fun d => d == '#') line =
      some (line.takeWhile goIsSpace).length := by
    conv_lhs => rw [line_eq_takeWhile_dropWhile line]
    exact findIdx_ws_hash _ _ (List.all_takeWhile) hhash
  have hidx : goIndexOf line '#' = ((line.takeWhile goIsSpace).length : Int) := by
    unfold goIndexOf
    rw [hfind]
  have hcap : captureIndent line = line.takeWhile goIsSpace := by
    unfold captureIndent
    rw [hidx, Int.toNat_ofNat]
    calc List.take (line.takeWhile goIsSpace).length line
        = List.take (line.takeWhile goIsSpace).length
            (line.takeWhile goIsSpace ++ line.dropWhile goIsSpace) := by
          rw [← line_eq_takeWhile_dropWhile line]
      _ = line.takeWhile goIsSpace := List.take_left _ _
  refine ⟨by rw [hidx]; exact Int.ofNat_nonneg _, hcap, ?_⟩
  rw [hcap]
  exact List.all_takeWhile

/-! ## Error paths: no partial output, no slice panic -/

theorem processLines_shape (pip : FPath → PRes) (fp : FPath) (lines : List Str) :
    (processLines pip fp lines).1 = [] ∨ (processLines pip fp lines).2 = none := by
  induction lines with
  | nil => simp [processLines]
  | cons line rest ih =>
    simp only [processLines]
    split
    · split
      · simp
      · split
        · exact ih
        · split
          · simp
          · split
            · simp
            · simp
    · split
      · simp
      · simp

theorem processWalk_shape (pf : FPath → PRes) (ps : List FPath) :
    (processWalk pf ps).1 = [] ∨ (processWalk pf ps).2 = none := by
  induction ps with
  | nil => simp [processWalk]
  | cons p rest ih =>
    simp only [processWalk]
    split
    · simp
    · split
      · simp
      · simp

theorem processFileCore_shape (pip : FPath → PRes) (fs : FSTree)
    (fp rd : FPath) (ir : Bool) :
    (processFileCore pip fs fp rd ir).1 = [] ∨
      (processFileCore pip fs fp rd ir).2 = none := by
  simp only [processFileCore]
  split
  · simp
  · simp
  · split
    · simp
    · split
      · simp
      · simp

theorem processFile_shape (fs : FSTree) (fuel : Nat) (fp rd : FPath) (ir : Bool) :
    (processFile fs fuel fp rd ir).1 = [] ∨ (processFile fs fuel fp rd ir).2 = none := by
  cases fuel with
  | zero => simp [processFile]
  | succ n =>
    simp only [processFile]
    exact processFileCore_shape _ fs fp rd ir

theorem processIncludePath_shape (fs : FSTree) (fuel : Nat) (p rd : FPath) :
    (processIncludePath fs fuel p rd).1 = [] ∨
      (processIncludePath fs fuel p rd).2 = none := by
  simp only [processIncludePath, processIncludePathCore]
  split
  · simp
  · exact processWalk_shape _ _
  · exact processFile_shape fs fuel p rd false

theorem processFile_err_empty (fs : FSTree) (fuel : Nat) (fp rd : FPath) (ir : Bool)
    (e : PErr) (h : (processFile fs fuel fp rd ir).2 = some e) :
    (processFile fs fuel fp rd ir).1 = [] := by
  rcases processFile_shape fs fuel fp rd ir with h1 | h1
  · exact h1
  · rw [h] at h1; cases h1

theorem processIncludePath_err_empty (fs : FSTree) (fuel : Nat) (p rd : FPath)
    (e : PErr) (h : (processIncludePath fs fuel p rd).2 = some e) :
    (processIncludePath fs fuel p rd).1 = [] := by
  rcases processIncludePath_shape fs fuel p rd with h1 | h1
  · exact h1
  · rw [h] at h1; cases h1

/-! ## Equation lemmas for the core functions -/

theorem processFile_succ (fs : FSTree) (n : Nat) (fp rd : FPath) (ir : Bool) :
    processFile fs (n + 1) fp rd ir =
      processFileCore
        (fun p => processIncludePathCore
          (fun q => processFile fs n q rd false) fs p) fs fp rd ir := rfl

theorem processFileCore_none (pip : FPath → PRes) (fs : FSTree) (fp rd : FPath)
    (ir : Bool) (hl : lookupFS fs fp = none) :
    processFileCore pip fs fp rd ir = ([], some (.openFail fp)) := by
  simp only [processFileCore, hl]

theorem processFileCore_dir (pip : FPath → PRes) (fs : FSTree) (fp rd : FPath)
    (ir : Bool) (es : List (Str × FSTree)) (hl : lookupFS fs fp = some (.dir es)) :
    processFileCore pip fs fp rd ir = ([], some (.readFail fp)) := by
  simp only [processFileCore, hl]

theorem processFileCore_file_err (pip : FPath → PRes) (fs : FSTree) (fp rd : FPath)
    (ir : Bool) (content b : Str) (e : PErr)
    (hl : lookupFS fs fp = some (.file content))
    (hpl : processLines pip fp (splitLinesGo content) = (b, some e)) :
    processFileCore pip fs fp rd ir = ([], some e) := by
  simp only [processFileCore, hl, hpl]

theorem processFileCore_file_root (pip : FPath → PRes) (fs : FSTree) (fp rd : FPath)
    (content body : Str)
    (hl : lookupFS fs fp = some (.file content))
    (hpl : processLines pip fp (splitLinesGo content) = (body, none)) :
    processFileCore pip fs fp rd true = (body, none) := by
  simp only [processFileCore, hl, hpl]
  simp

theorem processFileCore_file_nonroot (pip : FPath → PRes) (fs : FSTree)
    (fp rd : FPath) (content body : Str)
    (hl : lookupFS fs fp = some (.file content))
    (hpl : processLines pip fp (splitLinesGo content) = (body, none)) :
    processFileCore pip fs fp rd false =
      (trimRightNL (markerStartLine (relComps rd fp) ++ body) ++
        markerEndTail (relComps rd fp), none) := by
  simp only [processFileCore, hl, hpl]
  simp

theorem processIncludePathCore_none (pf : FPath → PRes) (fs : FSTree) (p : FPath)
    (hl : lookupFS fs p = none) :
    processIncludePathCore pf fs p = ([], some (.statFail p)) := by
  simp only [processIncludePathCore, hl]

theorem processIncludePathCore_dir (pf : FPath → PRes) (fs : FSTree) (p : FPath)
    (es : List (Str × FSTree)) (hl : lookupFS fs p = some (.dir es)) :
    processIncludePathCore pf fs p = processWalk pf (walkCollect (.dir es) p) := by
  simp only [processIncludePathCore, hl]

theorem processIncludePathCore_file (pf : FPath → PRes) (fs : FSTree) (p : FPath)
    (content : Str) (hl : lookupFS fs p = some (.file content)) :
    processIncludePathCore pf fs p = pf p := by
  simp only [processIncludePathCore, hl]

theorem processLines_cons_plain (pip : FPath → PRes) (fp : FPath) (line : Str)
    (rest : List Str) (r : Str)
    (hdir : startsWithL includeMarker (goTrimSpaceL line) = false)
    (hrest : processLines pip fp rest = (r, none)) :
    processLines pip fp (line :: rest) = (line ++ '
' :: r, none) := by
  simp only [processLines, hdir, hrest]
  simp

theorem processLines_cons_plain_err (pip : FPath → PRes) (fp : FPath) (line : Str)
    (rest : List Str) (r : Str) (e : PErr)
    (hdir : startsWithL includeMarker (goTrimSpaceL line) = false)
    (hrest : processLines pip fp rest = (r, some e)) :
    processLines pip fp (line :: rest) = ([], some e) := by
  simp only [processLines, hdir, hrest]
  simp

theorem processLines_cons_dir_empty (pip : FPath → PRes) (fp : FPath) (line : Str)
    (rest : List Str)
    (hdir : startsWithL includeMarker (goTrimSpaceL line) = true)
    (hemp : goTrimSpaceL (trimPrefixL includeMarker (goTrimSpaceL line)) = []) :
    processLines pip fp (line :: rest) = processLines pip fp rest := by
  have hge : ¬ goIndexOf line '#' < 0 := not_lt.mpr (directive_capture line hdir).1
  simp only [processLines, hdir, if_true, if_neg hge, hemp]

theorem processLines_cons_dir_err (pip : FPath → PRes) (fp : FPath) (line : Str)
    (rest : List Str) (c : Str) (e : PErr)
    (hdir : startsWithL includeMarker (goTrimSpaceL line) = true)
    (hemp : goTrimSpaceL (trimPrefixL includeMarker (goTrimSpaceL line)) ≠ [])
    (hp : pip (goJoin fp.dropLast
      (goTrimSpaceL (trimPrefixL includeMarker (goTrimSpaceL line)))) = (c, some e)) :
    processLines pip fp (line :: rest) =
      ([], some (.includeFail
        (goTrimSpaceL (trimPrefixL includeMarker (goTrimSpaceL line))) fp e)) := by
  have hge : ¬ goIndexOf line '#' < 0 := not_lt.mpr (directive_capture line hdir).1
  simp only [processLines, hdir, if_true, if_neg hge, if_neg hemp, hp]

theorem processLines_cons_dir_ok (pip : FPath → PRes) (fp : FPath) (line : Str)
    (rest : List Str) (c r : Str)
    (hdir : startsWithL includeMarker (goTrimSpaceL line) = true)
    (hemp : goTrimSpaceL (trimPrefixL includeMarker (goTrimSpaceL line)) ≠ [])
    (hp : pip (goJoin fp.dropLast
      (goTrimSpaceL (trimPrefixL includeMarker (goTrimSpaceL line)))) = (c, none))
    (hrest : processLines pip fp rest = (r, none)) :
    processLines pip fp (line :: rest) =
      (indentContent (captureIndent line) c ++ '
' :: r, none) := by
  have hge : ¬ goIndexOf line '#' < 0 := not_lt.mpr (directive_capture line hdir).1
  simp only [processLines, hdir, if_true, if_neg hge, if_neg hemp, hp, hrest]

theorem processLines_cons_dir_err2 (pip : FPath → PRes) (fp : FPath) (line : Str)
    (rest : List Str) (c r : Str) (e : PErr)
    (hdir : startsWithL includeMarker (goTrimSpaceL line) = true)
    (hemp : goTrimSpaceL (trimPrefixL includeMarker (goTrimSpaceL line)) ≠ [])
    (hp : pip (goJoin fp.dropLast
      (goTrimSpaceL (trimPrefixL includeMarker (goTrimSpaceL line)))) = (c, none))
    (hrest : processLines pip fp rest = (r, some e)) :
    processLines pip fp (line :: rest) = ([], some e) := by
  have hge : ¬ goIndexOf line '#' < 0 := not_lt.mpr (directive_capture line hdir).1
  simp only [processLines, hdir, if_true, if_neg hge, if_neg hemp, hp, hrest]

theorem processLines_errSlice (pip : FPath → PRes) (fp : FPath) (lines : List Str)
    (hpip : ∀ p e2, (pip p).2 = some e2 → errSlice e2 = false) :
    ∀ e, (processLines pip fp lines).2 = some e → errSlice e = false := by
  induction lines with
  | nil => intro e h; simp [processLines] at h
  | cons line rest ih =>
    intro e h
    simp only [processLines] at h
    by_cases hdir : startsWithL includeMarker (goTrimSpaceL line) = true
    · rw [if_pos hdir] at h
      have hge : ¬ goIndexOf line '#' < 0 := not_lt.mpr (directive_capture line hdir).1
      rw [if_neg hge] at h
      by_cases hemp : goTrimSpaceL (trimPrefixL includeMarker (goTrimSpaceL line)) = []
      · rw [if_pos hemp] at h
        exact ih e h
      · rw [if_neg hemp] at h
        rcases hp : pip (goJoin fp.dropLast
            (goTrimSpaceL (trimPrefixL includeMarker (goTrimSpaceL line)))) with ⟨c, oe⟩
        rw [hp] at h
        cases oe with
        | some e1 =>
          simp only [Option.some.injEq] at h
          subst h
          show errSlice (.includeFail _ fp e1) = false
          show errSlice e1 = false
          exact hpip _ e1 (by rw [hp])
        | none =>
          rcases hrest : processLines pip fp rest with ⟨r, roe⟩
          rw [hrest] at h
          cases roe with
          | some e2 =>
            simp only [Option.some.injEq] at h
            subst h
            exact ih e2 (by rw [hrest])
          | none => simp at h
    · rw [if_neg hdir] at h
      rcases hrest : processLines pip fp rest with ⟨r, roe⟩
      rw [hrest] at h
      cases roe with
      | some e2 =>
        simp only [Option.some.injEq] at h
        subst h
        exact ih e2 (by rw [hrest])
      | none => simp at h

theorem processWalk_errSlice (pf : FPath → PRes) (ps : List FPath)
    (hpf : ∀ q e2, (pf q).2 = some e2 → errSlice e2 = false) :
    ∀ e, (processWalk pf ps).2 = some e → errSlice e = false := by
  induction ps with
  | nil => intro e h; simp [processWalk] at h
  | cons p rest ih =>
    intro e h
    simp only [processWalk] at h
    rcases hp : pf p with ⟨c, oe⟩
    rw [hp] at h
    cases oe with
    | some e1 =>
      simp only [Option.some.injEq] at h
      subst h
      show errSlice e1 = false
      exact hpf p e1 (by rw [hp])
    | none =>
      rcases hrest : processWalk pf rest with ⟨r, roe⟩
      rw [hrest] at h
      cases roe with
      | some e2 =>
        simp only [Option.some.injEq] at h
        subst h
        exact ih e2 (by rw [hrest])
      | none => simp at h

theorem processFileCore_errSlice (pip : FPath → PRes) (fs : FSTree)
    (fp rd : FPath) (ir : Bool)
    (hpip : ∀ p e2, (pip p).2 = some e2 → errSlice e2 = false) :
    ∀ e, (processFileCore pip fs fp rd ir).2 = some e → errSlice e = false := by
  intro e h
  cases hl : lookupFS fs fp with
  | none =>
    rw [processFileCore_none pip fs fp rd ir hl] at h
    simp only [Option.some.injEq] at h
    subst h
    rfl
  | some t =>
    cases t with
    | dir es =>
      rw [processFileCore_dir pip fs fp rd ir es hl] at h
      simp only [Option.some.injEq] at h
      subst h
      rfl
    | file content =>
      rcases hpl : processLines pip fp (splitLinesGo content) with ⟨b, oe⟩
      cases oe with
      | some e1 =>
        rw [processFileCore_file_err pip fs fp rd ir content b e1 hl hpl] at h
        simp only [Option.some.injEq] at h
        subst h
        exact processLines_errSlice pip fp _ hpip e1 (by rw [hpl])
      | none =>
        cases ir with
        | true =>
          rw [processFileCore_file_root pip fs fp rd content b hl hpl] at h
          simp at h
        | false =>
          rw [processFileCore_file_nonroot pip fs fp rd content b hl hpl] at h
          simp at h

theorem processFile_errSlice (fs : FSTree) :
    ∀ fuel fp rd ir e, (processFile fs fuel fp rd ir).2 = some e →
      errSlice e = false := by
  intro fuel
  induction fuel with
  | zero =>
    intro fp rd ir e h
    simp only [processFile, Option.some.injEq] at h
    subst h
    rfl
  | succ n ih =>
    intro fp rd ir e h
    simp only [processFile] at h
    refine processFileCore_errSlice _ fs fp rd ir ?_ e h
    intro p e2 hp2
    simp only [processIncludePathCore] at hp2
    cases hl : lookupFS fs p with
    | none =>
      rw [hl] at hp2
      simp only [Option.some.injEq] at hp2
      subst hp2
      rfl
    | some t =>
      rw [hl] at hp2
      cases t with
      | dir es =>
        exact processWalk_errSlice _ _ (fun q e3 hq3 => ih q rd false e3 hq3) e2 hp2
      | file content => exact ih p rd false e2 hp2

/-- C10: for every line whose whitespace-trimmed form starts with
`#include:`, the `strings.Index(line, "#")` lookup is non-negative (so the
slice `line[:index]` cannot panic) and the captured indentation is pure
whitespace; consequently no run of `processFile` ever produces the
slice-panic marker anywhere in its error chain. -/
theorem claim_C10_slice_safety :
    (∀ line : Str, isDirectiveLine line = true →
      0 ≤ goIndexOf line '#' ∧ (captureIndent line).all goIsSpace = true) ∧
    (∀ fs fuel fp rd ir e, (processFile fs fuel fp rd ir).2 = some e →
      errSlice e = false) :=
  ⟨fun line h => ⟨(directive_capture line h).1, (directive_capture line h).2.2⟩,
   fun fs fuel fp rd ir e h => processFile_errSlice fs fuel fp rd ir e h⟩

/-- Witness for C10 at the concrete directive line `  #include: x` and the
concrete self-include filesystem. -/
theorem claim_C10_slice_safety_witness :
    (0 ≤ goIndexOf "  #include: x".toList '#' ∧
      (captureIndent "  #include: x".toList).all goIsSpace = true) ∧
    errSlice PErr.fuelOut = false :=
  ⟨claim_C10_slice_safety.1 "  #include: x".toList (by decide),
   claim_C10_slice_safety.2 cycleFS 0 ["a.txt".toList] [] true PErr.fuelOut (by decide)⟩

/-- C8: expansion is atomic on failure — whenever `processFile` or
`processIncludePath` returns an error, the returned text is empty (`""`),
and `main` prints nothing to stdout when the root expansion fails. -/
theorem claim_C8_atomic_failure :
    (∀ fs fuel fp rd ir e, (processFile fs fuel fp rd ir).2 = some e →
      (processFile fs fuel fp rd ir).1 = []) ∧
    (∀ fs fuel p rd e, (processIncludePath fs fuel p rd).2 = some e →
      (processIncludePath fs fuel p rd).1 = []) ∧
    (∀ fs rd fuel e,
      (processFile fs fuel (rd ++ [rootTemplateName]) rd true).2 = some e →
      mainRun fs rd fuel = none) := by
  refine ⟨processFile_err_empty, processIncludePath_err_empty, ?_⟩
  intro fs rd fuel e h
  simp only [mainRun]
  split
  · split
    · rfl
    · rcases hr : processFile fs fuel (rd ++ [rootTemplateName]) rd true with ⟨t, oe⟩
      rw [hr] at h
      cases oe with
      | some e1 => simp
      | none => simp at h
  · rfl

/-- Witness for C8 at a concrete filesystem whose root template includes a
missing path: the expansion errors, returns empty text, and main prints
nothing. -/
theorem claim_C8_atomic_failure_witness :
    (processFile exMissingFS 3 ["cloud-init.tmpl.yaml".toList] [] true).1 = [] ∧
    mainRun exMissingFS [] 3 = none := by
  constructor
  · exact claim_C8_atomic_failure.1 exMissingFS 3 ["cloud-init.tmpl.yaml".toList] [] true
      (.includeFail "nope".toList ["cloud-init.tmpl.yaml".toList]
        (.statFail ["nope".toList])) (by decide)
  · exact claim_C8_atomic_failure.2.2 exMissingFS [] 3
      (.includeFail "nope".toList ["cloud-init.tmpl.yaml".toList]
        (.statFail ["nope".toList])) (by decide)

/-- C2: the self-include cycle never succeeds — expanding `a.txt`, whose
only line is `#include: a.txt`, returns an error for every fuel bound,
i.e. the recursion never terminates with a result (the code has no cycle
detection despite the comment in main.go lines 16–17 claiming it). -/
theorem claim_C2_cycle_diverges :
    ∀ fuel ir, ((processFile cycleFS fuel ["a.txt".toList] [] ir).2).isSome = true := by
  intro fuel
  induction fuel with
  | zero => intro ir; rfl
  | succ n ih =>
    intro ir
    rw [processFile_succ]
    rcases hr : processFile cycleFS n ["a.txt".toList] [] false with ⟨c, oe⟩
    have hoe : oe.isSome = true := by
      have := ih false
      rw [hr] at this
      exact this
    cases oe with
    | none => simp at hoe
    | some e =>
      have hl : lookupFS cycleFS ["a.txt".toList] =
          some (.file "#include: a.txt\n".toList) := rfl
      have hpip : processIncludePathCore
          (fun q => processFile cycleFS n q [] false) cycleFS ["a.txt".toList] =
          (c, some e) := by
        rw [processIncludePathCore_file _ cycleFS ["a.txt".toList]
          "#include: a.txt\n".toList rfl]
        exact hr
      have hpl : processLines
          (fun p => processIncludePathCore
            (fun q => processFile cycleFS n q [] false) cycleFS p)
          ["a.txt".toList] (splitLinesGo "#include: a.txt\n".toList) =
          ([], some (.includeFail "a.txt".toList ["a.txt".toList] e)) := by
        show processLines _ _ ("#include: a.txt".toList :: []) = _
        rw [processLines_cons_dir_err _ _ _ [] c e (by decide) (by decide) hpip]
        rfl
      rw [processFileCore_file_err _ cycleFS _ [] ir _ [] _ hl hpl]
      rfl

/-! ## Directive-free files expand verbatim -/

theorem processLines_no_directive (pip : FPath → PRes) (fp : FPath) (lines : List Str)
    (hnd : ∀ l ∈ lines, isDirectiveLine l = false) :
    processLines pip fp lines = (joinLinesNL lines, none) := by
  induction lines with
  | nil => rfl
  | cons line rest ih =>
    have hdir : startsWithL includeMarker (goTrimSpaceL line) = false :=
      hnd line (List.mem_cons_self line rest)
    have hrest := ih (fun l hl => hnd l (List.mem_cons_of_mem line hl))
    rw [processLines_cons_plain pip fp line rest (joinLinesNL rest) hdir hrest]
    rfl

theorem rawSplitOn_no_sep (sep : Char) (s : Str) (h : sep ∉ s) :
    rawSplitOn sep s = [s] := by
  induction s with
  | nil => rfl
  | cons c rest ih =>
    have hc : c ≠ sep := fun hh => h (hh ▸ List.mem_cons_self c rest)
    have hrest : sep ∉ rest := fun hh => h (List.mem_cons_of_mem c hh)
    rw [rawSplitOn_cons_ne sep c rest rest [] hc (ih hrest)]

theorem join_rawSplit (u : Str) : joinLinesNL (rawSplitOn '\n' u) = u ++ ['\n'] := by
  induction u with
  | nil => rfl
  | cons c rest ih =>
    by_cases h : c = '\n'
    · subst h
      show joinLinesNL (rawSplitOn '\n' ('\n' :: rest)) = '\n' :: (rest ++ ['\n'])
      have : rawSplitOn '\n' ('\n' :: rest) = [] :: rawSplitOn '\n' rest := by
        simp [rawSplitOn]
      rw [this]
      show '\n' :: joinLinesNL (rawSplitOn '\n' rest) = '\n' :: (rest ++ ['\n'])
      rw [ih]
    · rcases hr : rawSplitOn '\n' rest with _ | ⟨a, b⟩
      · exact absurd hr (rawSplitOn_ne_nil '\n' rest)
      · rw [rawSplitOn_cons_ne '\n' c rest a b h hr]
        show (c :: a) ++ '\n' :: joinLinesNL b = (c :: rest) ++ ['\n']
        rw [hr] at ih
        show c :: (a ++ '\n' :: joinLinesNL b) = c :: (rest ++ ['\n'])
        have : a ++ '\n' :: joinLinesNL b = joinLinesNL (a :: b) := rfl
        rw [this, ih]

theorem mem_chars_rawSplitOn (sep : Char) (s : Str) :
    ∀ part ∈ rawSplitOn sep s, ∀ c ∈ part, c ∈ s := by
  induction s with
  | nil =>
    intro part hp c hc
    simp only [rawSplitOn, List.mem_singleton] at hp
    subst hp
    simp at hc
  | cons d rest ih =>
    intro part hp c hc
    by_cases h : d = sep
    · rw [show rawSplitOn sep (d :: rest) = [] :: rawSplitOn sep rest by simp [rawSplitOn, h]] at hp
      rcases List.mem_cons.mp hp with hp | hp
      · subst hp; simp at hc
      · exact List.mem_cons_of_mem d (ih part hp c hc)
    · rcases hr : rawSplitOn sep rest with _ | ⟨a, b⟩
      · exact absurd hr (rawSplitOn_ne_nil sep rest)
      · rw [rawSplitOn_cons_ne sep d rest a b h hr] at hp
        rcases List.mem_cons.mp hp with hp | hp
        · subst hp
          rcases List.mem_cons.mp hc with hc | hc
          · exact hc ▸ List.mem_cons_self d rest
          · exact List.mem_cons_of_mem d (ih a (hr ▸ List.mem_cons_self a b) c hc)
        · exact List.mem_cons_of_mem d (ih part (hr ▸ List.mem_cons_of_mem a hp) c hc)

theorem joinLinesNL_splitLinesGo (s : Str) (hcr : '\r' ∉ s)
    (hnl : s = [] ∨ s.getLast? = some '\n') :
    joinLinesNL (splitLinesGo s) = s := by
  rcases hnl with hnl | hnl
  · subst hnl; rfl
  · obtain ⟨u, rfl⟩ := List.getLast?_eq_some_iff.mp hnl
    rw [splitLinesGo_eq_of_concat_nl]
    have hu : '\r' ∉ u := fun hh => hcr (List.mem_append_left _ hh)
    have hmap : (rawSplitOn '\n' u).map dropCR = rawSplitOn '\n' u := by
      have : ∀ part ∈ rawSplitOn '\n' u, dropCR part = id part := by
        intro part hp
        exact dropCR_of_not_mem part
          (fun hc => hu (mem_chars_rawSplitOn '\n' u part hp '\r' hc))
      rw [List.map_congr_left this, List.map_id]
    rw [hmap, join_rawSplit]

theorem trimRight_concat_nl (x : Str) (h : x.getLast? ≠ some '\n') :
    trimRightNL (x ++ ['\n']) = x := by
  unfold trimRightNL
  rw [List.reverse_append]
  show ((['\n'].reverse ++ x.reverse).dropWhile (fun c => c == '\n')).reverse = x
  rw [List.reverse_singleton, List.singleton_append]
  rw [List.dropWhile_cons_of_pos (by simp)]
  cases hx : x.reverse with
  | nil =>
    have : x = [] := by simpa using congrArg List.reverse hx
    simp [this]
  | cons a as =>
    have ha : (a == '\n') = false := by
      have : x.getLast? = some a := by
        have h2 := List.getLast?_reverse x.reverse
        rw [List.reverse_reverse] at h2
        rw [h2, hx]
        rfl
      by_cases hh : a = '\n'
      · exact absurd (hh ▸ this) h
      · simp [hh]
    rw [List.dropWhile_cons_of_neg (by simp [ha])]
    rw [← hx, List.reverse_reverse]

/-- C4: for a root file with no `#include:` directive lines, expansion
returns the input with every scanned line rejoined behind a `\n` (line
endings normalized), and byte-for-byte verbatim whenever the content is
already `\n`-normalized (carriage-return-free and newline-terminated or
empty). -/
theorem claim_C4_root_verbatim :
    ∀ (fs : FSTree) (fuel : Nat) (fp rd : FPath) (content : Str),
      lookupFS fs fp = some (.file content) →
      (∀ l ∈ splitLinesGo content, isDirectiveLine l = false) →
      processFile fs (fuel + 1) fp rd true =
        (joinLinesNL (splitLinesGo content), none) ∧
      ('\r' ∉ content → (content = [] ∨ content.getLast? = some '\n') →
        processFile fs (fuel + 1) fp rd true = (content, none)) := by
  intro fs fuel fp rd content hl hnd
  have hpl := processLines_no_directive
    (fun p => processIncludePathCore (fun q => processFile fs fuel q rd false) fs p)
    fp (splitLinesGo content) hnd
  constructor
  · rw [processFile_succ, processFileCore_file_root _ fs fp rd content _ hl hpl]
  · intro hcr hnl
    rw [processFile_succ, processFileCore_file_root _ fs fp rd content _ hl hpl,
      joinLinesNL_splitLinesGo content hcr hnl]

/-- Witness for C4 at a concrete directive-free two-line root file. -/
theorem claim_C4_root_verbatim_witness :
    processFile exPlainFS 1 [['t']] [] true = ("x\ny\n".toList, none) :=
  (claim_C4_root_verbatim exPlainFS 0 [['t']] [] "x\ny\n".toList rfl
    (by decide)).2 (by decide) (by decide)

/-- C6 counterexample: the text `a` contains no directive lines, yet root
expansion returns `a\n`, not the input unchanged — so re-running expansion
on arbitrary directive-free text is not always the identity. -/
theorem claim_C6_counterexample :
    processFile exNoFinalNL 1 [['t']] [] true = (['a', '\n'], none) ∧
    (processFile exNoFinalNL 1 [['t']] [] true).1 ≠ ['a'] := by decide

/-- C6 amended: root expansion is the identity on every directive-free text
that is carriage-return-free and newline-terminated (or empty) — which is
the normalized form expansion itself emits. -/
theorem claim_C6_idempotence_amended :
    ∀ (fs : FSTree) (fuel : Nat) (fp rd : FPath) (content : Str),
      lookupFS fs fp = some (.file content) →
      (∀ l ∈ splitLinesGo content, isDirectiveLine l = false) →
      '\r' ∉ content → (content = [] ∨ content.getLast? = some '\n') →
      processFile fs (fuel + 1) fp rd true = (content, none) := by
  intro fs fuel fp rd content hl hnd hcr hnl
  have hpl := processLines_no_directive
    (fun p => processIncludePathCore (fun q => processFile fs fuel q rd false) fs p)
    fp (splitLinesGo content) hnd
  rw [processFile_succ, processFileCore_file_root _ fs fp rd content _ hl hpl,
    joinLinesNL_splitLinesGo content hcr hnl]

/-- Witness for the amended C6 at a concrete one-line file. -/
theorem claim_C6_idempotence_amended_witness :
    processFile exPlain2FS 1 [['u']] [] true = ("z\n".toList, none) :=
  claim_C6_idempotence_amended exPlain2FS 0 [['u']] [] "z\n".toList rfl
    (by decide) (by decide) (by decide)

/-- C9: expanding an empty file as a non-root include yields exactly the
two marker lines `# START <rel>` and `# END <rel>` with no content line
between them. -/
theorem claim_C9_empty_include :
    ∀ (fs : FSTree) (fuel : Nat) (fp rd : FPath),
      lookupFS fs fp = some (.file []) →
      (renderPath (relComps rd fp)).getLast? ≠ some '\n' →
      processFile fs (fuel + 1) fp rd false =
        ("# START ".toList ++ renderPath (relComps rd fp) ++
          '\n' :: "# END ".toList ++ renderPath (relComps rd fp) ++ ['\n'], none) := by
  intro fs fuel fp rd hl hrnl
  have hpl : processLines
      (fun p => processIncludePathCore (fun q => processFile fs fuel q rd false) fs p)
      fp (splitLinesGo []) = ([], none) := rfl
  rw [processFile_succ, processFileCore_file_nonroot _ fs fp rd [] [] hl hpl]
  rw [List.append_nil]
  have hm : markerStartLine (relComps rd fp) =
      ("# START ".toList ++ renderPath (relComps rd fp)) ++ ['\n'] := by
    simp [markerStartLine]
  rw [hm, trimRight_concat_nl]
  · simp [markerEndTail]
  · rw [List.getLast?_append]
    cases hre : (renderPath (relComps rd fp)).getLast? with
    | none => decide
    | some x =>
      rw [hre] at hrnl
      simp only [Option.or_some]
      intro hc
      injection hc with hc
      exact hrnl (by rw [hc])

/-- Witness for C9 at a concrete empty file included from the root
directory. -/
theorem claim_C9_empty_include_witness :
    processFile exEmptyFS 1 [['e']] [] false = ("# START e\n# END e\n".toList, none) := by
  have h := claim_C9_empty_include exEmptyFS 0 [['e']] [] rfl (by decide)
  exact h.trans (by decide)

theorem trimSuffix_concat_nl (y : Str) : trimSuffixNL (y ++ ['\n']) = y := by
  unfold trimSuffixNL
  rw [if_pos (by simp), List.dropLast_concat]

theorem splitLinesGo_no_nl (s : Str) (hnl : '\n' ∉ s) (hne : s ≠ [])
    (hcr : s.getLast? ≠ some '\r') : splitLinesGo s = [s] := by
  simp only [splitLinesGo]
  rw [rawSplitOn_no_sep '\n' s hnl]
  rw [if_neg (by simp [hne])]
  simp [dropCR_of_getLast s hcr]

theorem splitLinesGo_single (a : Str) (hnl : '\n' ∉ a) (hcr : a.getLast? ≠ some '\r') :
    splitLinesGo (a ++ ['\n']) = [a] := by
  rw [splitLinesGo_eq_of_concat_nl, rawSplitOn_no_sep '\n' a hnl]
  simp [dropCR_of_getLast a hcr]

theorem processFile_nonroot_nodir (fs : FSTree) (fuel : Nat) (fp rd : FPath)
    (content : Str) (hl : lookupFS fs fp = some (.file content))
    (hnd : ∀ l ∈ splitLinesGo content, isDirectiveLine l = false) :
    processFile fs (fuel + 1) fp rd false =
      (trimRightNL (markerStartLine (relComps rd fp) ++
          joinLinesNL (splitLinesGo content)) ++
        markerEndTail (relComps rd fp), none) := by
  rw [processFile_succ, processFileCore_file_nonroot _ fs fp rd content _ hl
    (processLines_no_directive _ fp _ hnd)]

/-- C1 counterexample: for the two-space directive `  #include: foo.txt`
with `foo.txt` holding `a\nb\n`, the emitted block is not `  a\n  b\n\n`,
and the block does contain START/END marker lines (the included file's
markers, indented along with its content). -/
theorem claim_C1_counterexample :
    (processFile exIncludeFS 3 [['r']] [] true).1 ≠ "  a\n  b\n\n".toList ∧
    "  # START foo.txt".toList ∈
      splitLinesGo (processFile exIncludeFS 3 [['r']] [] true).1 ∧
    isMarkerLine "  # START foo.txt".toList = true := by decide

/-- C1 amended: for a root file holding exactly the directive
`  #include: foo.txt` where `foo.txt` holds `a\nb\n`, the emitted block is
`  # START <rel>\n  a\n  b\n  # END <rel>\n\n` — the target's marker-wrapped
expansion with the two-space indentation applied to every line, followed by
the single blank separator line; the markers of `foo.txt` itself sit inside
the block. -/
theorem claim_C1_include_block_amended :
    ∀ (fs : FSTree) (fuel : Nat) (fp rd : FPath),
      lookupFS fs fp = some (.file "  #include: foo.txt\n".toList) →
      lookupFS fs (goJoin fp.dropLast "foo.txt".toList) =
        some (.file "a\nb\n".toList) →
      '\n' ∉ renderPath (relComps rd (goJoin fp.dropLast "foo.txt".toList)) →
      (renderPath (relComps rd (goJoin fp.dropLast "foo.txt".toList))).getLast? ≠
        some '\r' →
      processFile fs (fuel + 2) fp rd true =
        ("  # START ".toList ++
          renderPath (relComps rd (goJoin fp.dropLast "foo.txt".toList)) ++
          '\n' :: "  a\n  b\n  # END ".toList ++
          renderPath (relComps rd (goJoin fp.dropLast "foo.txt".toList)) ++
          "\n\n".toList, none) := by
  intro fs fuel fp rd hroot htgt hrnl hrcr
  have hMarker : markerStartLine (relComps rd (goJoin fp.dropLast "foo.txt".toList)) =
      ("# START ".toList ++
        renderPath (relComps rd (goJoin fp.dropLast "foo.txt".toList))) ++ ['\n'] := by
    simp [markerStartLine]
  have hrlast : (("# START ".toList ++
      renderPath (relComps rd (goJoin fp.dropLast "foo.txt".toList))) ++
      '\n' :: "a\nb".toList).getLast? = some 'b' := by
    rw [List.getLast?_append]
    rfl
  have hinner := processFile_nonroot_nodir fs fuel
    (goJoin fp.dropLast "foo.txt".toList) rd "a\nb\n".toList htgt (by decide)
  rw [show joinLinesNL (splitLinesGo "a\nb\n".toList) = "a\nb\n".toList from rfl] at hinner
  rw [hMarker] at hinner
  rw [show (("# START ".toList ++
        renderPath (relComps rd (goJoin fp.dropLast "foo.txt".toList))) ++ ['\n']) ++
      "a\nb\n".toList =
      (("# START ".toList ++
        renderPath (relComps rd (goJoin fp.dropLast "foo.txt".toList))) ++
        '\n' :: "a\nb".toList) ++ ['\n'] by simp] at hinner
  rw [trimRight_concat_nl _ (by rw [hrlast]; decide)] at hinner
  rw [show markerEndTail (relComps rd (goJoin fp.dropLast "foo.txt".toList)) =
      '\n' :: ("# END ".toList ++
        renderPath (relComps rd (goJoin fp.dropLast "foo.txt".toList))) ++ ['\n'] by
    simp [markerEndTail]] at hinner
  have hA_nl : '\n' ∉ "# START ".toList ++
      renderPath (relComps rd (goJoin fp.dropLast "foo.txt".toList)) := by
    intro hmem
    rcases List.mem_append.mp hmem with h | h
    · simp at h
    · exact hrnl h
  have hB_nl : '\n' ∉ "# END ".toList ++
      renderPath (relComps rd (goJoin fp.dropLast "foo.txt".toList)) := by
    intro hmem
    rcases List.mem_append.mp hmem with h | h
    · simp at h
    · exact hrnl h
  have hA_cr : ("# START ".toList ++
      renderPath (relComps rd (goJoin fp.dropLast "foo.txt".toList))).getLast? ≠
      some '\r' := by
    rw [List.getLast?_append]
    cases hre : (renderPath (relComps rd (goJoin fp.dropLast "foo.txt".toList))).getLast? with
    | none => decide
    | some x =>
      rw [hre] at hrcr
      simp only [Option.or_some]
      intro hc
      exact hrcr hc
  have hB_cr : ("# END ".toList ++
      renderPath (relComps rd (goJoin fp.dropLast "foo.txt".toList))).getLast? ≠
      some '\r' := by
    rw [List.getLast?_append]
    cases hre : (renderPath (relComps rd (goJoin fp.dropLast "foo.txt".toList))).getLast? with
    | none => decide
    | some x =>
      rw [hre] at hrcr
      simp only [Option.or_some]
      intro hc
      exact hrcr hc
  have hB_ne : "# END ".toList ++
      renderPath (relComps rd (goJoin fp.dropLast "foo.txt".toList)) ≠ [] := by
    simp
  have hsplitInner : splitLinesGo
      (("# START ".toList ++
        renderPath (relComps rd (goJoin fp.dropLast "foo.txt".toList))) ++
        '\n' :: "a\nb".toList ++
        '\n' :: ("# END ".toList ++
          renderPath (relComps rd (goJoin fp.dropLast "foo.txt".toList)))) =
      ["# START ".toList ++
        renderPath (relComps rd (goJoin fp.dropLast "foo.txt".toList)),
        ['a'], ['b'],
        "# END ".toList ++
          renderPath (relComps rd (goJoin fp.dropLast "foo.txt".toList))] := by
    rw [show ("# START ".toList ++
        renderPath (relComps rd (goJoin fp.dropLast "foo.txt".toList))) ++
        '\n' :: "a\nb".toList ++
        '\n' :: ("# END ".toList ++
          renderPath (relComps rd (goJoin fp.dropLast "foo.txt".toList))) =
        (("# START ".toList ++
          renderPath (relComps rd (goJoin fp.dropLast "foo.txt".toList))) ++ ['\n']) ++
        (("a".toList ++ ['\n']) ++ (("b".toList ++ ['\n']) ++
          ("# END ".toList ++
            renderPath (relComps rd (goJoin fp.dropLast "foo.txt".toList))))) by simp]
    rw [splitLinesGo_append _ _ (Or.inr (List.getLast?_concat _))]
    rw [splitLinesGo_append _ _ (Or.inr (List.getLast?_concat _))]
    rw [splitLinesGo_append _ _ (Or.inr (List.getLast?_concat _))]
    rw [splitLinesGo_single _ hA_nl hA_cr]
    rw [splitLinesGo_single "a".toList (by decide) (by decide)]
    rw [splitLinesGo_single "b".toList (by decide) (by decide)]
    rw [splitLinesGo_no_nl _ hB_nl hB_ne hB_cr]
    rfl
  have hic : indentContent "  ".toList
      ((("# START ".toList ++
        renderPath (relComps rd (goJoin fp.dropLast "foo.txt".toList))) ++
        '\n' :: "a\nb".toList) ++
        '\n' :: ("# END ".toList ++
          renderPath (relComps rd (goJoin fp.dropLast "foo.txt".toList))) ++ ['\n']) =
      joinLinesNL
        ([("  ".toList ++ ("# START ".toList ++
            renderPath (relComps rd (goJoin fp.dropLast "foo.txt".toList)))),
          "  a".toList, "  b".toList,
          ("  ".toList ++ ("# END ".toList ++
            renderPath (relComps rd (goJoin fp.dropLast "foo.txt".toList))))]) := by
    simp only [indentContent]
    rw [show ((("# START ".toList ++
        renderPath (relComps rd (goJoin fp.dropLast "foo.txt".toList))) ++
        '\n' :: "a\nb".toList) ++
        '\n' :: ("# END ".toList ++
          renderPath (relComps rd (goJoin fp.dropLast "foo.txt".toList))) ++ ['\n']) =
        ((("# START ".toList ++
          renderPath (relComps rd (goJoin fp.dropLast "foo.txt".toList))) ++
          '\n' :: "a\nb".toList ++
          '\n' :: ("# END ".toList ++
            renderPath (relComps rd (goJoin fp.dropLast "foo.txt".toList)))) ++ ['\n'])
      by simp]
    rw [trimSuffix_concat_nl]
    rw [if_neg (by simp)]
    rw [hsplitInner]
    rfl
  have hp : processIncludePathCore
      (fun q => processFile fs (fuel + 1) q rd false) fs
      (goJoin fp.dropLast "foo.txt".toList) =
      ((("# START ".toList ++
        renderPath (relComps rd (goJoin fp.dropLast "foo.txt".toList))) ++
        '\n' :: "a\nb".toList) ++
        '\n' :: ("# END ".toList ++
          renderPath (relComps rd (goJoin fp.dropLast "foo.txt".toList))) ++ ['\n'], none) := by
    rw [processIncludePathCore_file _ fs _ "a\nb\n".toList htgt]
    rw [hinner]
    simp
  have hpl : processLines
      (fun p => processIncludePathCore
        (fun q => processFile fs (fuel + 1) q rd false) fs p)
      fp (splitLinesGo "  #include: foo.txt\n".toList) =
      (indentContent (captureIndent "  #include: foo.txt".toList)
        ((("# START ".toList ++
          renderPath (relComps rd (goJoin fp.dropLast "foo.txt".toList))) ++
          '\n' :: "a\nb".toList) ++
          '\n' :: ("# END ".toList ++
            renderPath (relComps rd (goJoin fp.dropLast "foo.txt".toList))) ++ ['\n']) ++
        '\n' :: [], none) := by
    show processLines _ fp ("  #include: foo.txt".toList :: []) = _
    rw [processLines_cons_dir_ok _ fp _ [] _ [] (by decide) (by decide) hp rfl]
  rw [show (fuel + 2) = (fuel + 1) + 1 from rfl, processFile_succ]
  rw [processFileCore_file_root _ fs fp rd "  #include: foo.txt\n".toList _ hroot hpl]
  rw [show captureIndent "  #include: foo.txt".toList = "  ".toList from by decide]
  rw [hic]
  simp [joinLinesNL]

/-- Witness for the amended C1 at the concrete two-file tree. -/
theorem claim_C1_include_block_amended_witness :
    processFile exIncludeFS 3 [['r']] [] true =
      ("  # START foo.txt\n  a\n  b\n  # END foo.txt\n\n".toList, none) := by
  have h := claim_C1_include_block_amended exIncludeFS 1 [['r']] [] rfl rfl
    (by decide) (by decide)
  exact h.trans (by decide)

/-! ## Lines of a marker-wrapped non-root result -/

theorem joinLinesNL_replicate_nil (k : Nat) :
    joinLinesNL (List.replicate k []) = List.replicate k '\n' := by
  induction k with
  | zero => rfl
  | succ n ih =>
    show joinLinesNL ([] :: List.replicate n []) = '\n' :: List.replicate n '\n'
    show '\n' :: joinLinesNL (List.replicate n []) = _
    rw [ih]

theorem trimRight_append_repl (x : Str) (k : Nat) (h : x.getLast? ≠ some '\n') :
    trimRightNL (x ++ List.replicate k '\n') = x := by
  unfold trimRightNL
  rw [List.reverse_append, List.reverse_replicate]
  rw [List.dropWhile_append_of_pos (by intro a ha; simp at ha; simp [ha])]
  cases hx : x.reverse with
  | nil =>
    have : x = [] := by simpa using congrArg List.reverse hx
    simp [this]
  | cons a as =>
    have ha : (a == '\n') = false := by
      have h2 := List.getLast?_reverse x.reverse
      rw [List.reverse_reverse] at h2
      rw [hx] at h2
      by_cases hh : a = '\n'
      · subst hh
        exact absurd h2 h
      · simp [hh]
    rw [List.dropWhile_cons_of_neg (by simp [ha])]
    rw [← hx, List.reverse_reverse]

theorem joinLinesNL_concat_last (ls : List Str) (ll : Str) (h : ls.getLast? = some ll) :
    joinLinesNL ls = joinLinesNL ls.dropLast ++ ll ++ ['\n'] := by
  obtain ⟨ys, rfl⟩ := List.getLast?_eq_some_iff.mp h
  rw [List.dropLast_concat, joinLinesNL_append]
  show joinLinesNL ys ++ (ll ++ '\n' :: []) = joinLinesNL ys ++ ll ++ ['\n']
  simp

theorem mem_chars_splitLinesGo (s : Str) (l : Str) (hl : l ∈ splitLinesGo s) :
    ∀ c ∈ l, c ∈ s := by
  intro c hc
  simp only [splitLinesGo, List.mem_map] at hl
  obtain ⟨part, hpart, hdrop⟩ := hl
  have hmem : part ∈ rawSplitOn '\n' s := by
    by_cases h : (rawSplitOn '\n' s).getLast? == some []
    · rw [if_pos h] at hpart
      exact List.dropLast_subset _ hpart
    · rw [if_neg h] at hpart
      exact hpart
  have hsub : c ∈ part := by
    subst hdrop
    unfold dropCR at hc
    by_cases h2 : part.getLast? == some '\r'
    · rw [if_pos h2] at hc
      exact List.dropLast_subset _ hc
    · rw [if_neg h2] at hc
      exact hc
  exact mem_chars_rawSplitOn '\n' s part hmem c hsub

theorem not_nl_mem_splitLinesGo (s : Str) (l : Str) (hl : l ∈ splitLinesGo s) :
    '\n' ∉ l := mem_splitLinesGo_not_nl s l hl

theorem processFile_nonroot_body (fs : FSTree) (fuel : Nat) (fp rd : FPath)
    (content : Str) (blCore : List Str) (k : Nat)
    (hl : lookupFS fs fp = some (.file content))
    (hpl : processLines
      (fun p => processIncludePathCore (fun q => processFile fs fuel q rd false) fs p)
      fp (splitLinesGo content) =
      (joinLinesNL (blCore ++ List.replicate k []), none))
    (hne : blCore ≠ [])
    (hwf : ∀ l ∈ blCore, '\n' ∉ l)
    (hlast : blCore.getLast? ≠ some []) :
    processFile fs (fuel + 1) fp rd false =
      (markerStartLine (relComps rd fp) ++ joinLinesNL blCore ++
        ("# END ".toList ++ renderPath (relComps rd fp) ++ ['\n']), none) := by
  rw [processFile_succ, processFileCore_file_nonroot _ fs fp rd content _ hl hpl]
  obtain ⟨ll, hll⟩ : ∃ ll, blCore.getLast? = some ll := by
    cases hx : blCore.getLast? with
    | none => exact absurd (List.getLast?_eq_none_iff.mp hx) hne
    | some y => exact ⟨y, rfl⟩
  have hllne : ll ≠ [] := fun hc => hlast (hc ▸ hll)
  have hllnl : '\n' ∉ ll := hwf ll (List.mem_of_getLast?_eq_some hll)
  have hjoin : joinLinesNL (blCore ++ List.replicate k []) =
      joinLinesNL blCore ++ List.replicate k '\n' := by
    rw [joinLinesNL_append, joinLinesNL_replicate_nil]
  have hdecomp : markerStartLine (relComps rd fp) ++
      (joinLinesNL blCore ++ List.replicate k '\n') =
      (markerStartLine (relComps rd fp) ++ joinLinesNL blCore.dropLast ++ ll) ++
        List.replicate (k + 1) '\n' := by
    rw [joinLinesNL_concat_last blCore ll hll]
    rw [show List.replicate (k + 1) '\n' = '\n' :: List.replicate k '\n' from rfl]
    simp
  have hxlast : (markerStartLine (relComps rd fp) ++ joinLinesNL blCore.dropLast ++
      ll).getLast? ≠ some '\n' := by
    rw [List.getLast?_append]
    cases hlle : ll.getLast? with
    | none => exact absurd (List.getLast?_eq_none_iff.mp hlle) hllne
    | some y =>
      simp only [Option.or_some]
      intro hc
      injection hc with hc
      subst hc
      exact hllnl (List.mem_of_getLast?_eq_some hlle)
  rw [hjoin, hdecomp, trimRight_append_repl _ _ hxlast]
  have : markerEndTail (relComps rd fp) =
      '\n' :: ("# END ".toList ++ renderPath (relComps rd fp) ++ ['\n']) := rfl
  rw [this]
  rw [joinLinesNL_concat_last blCore ll hll]
  simp

theorem splitLines_marker_wrap (render : Str) (bl : List Str)
    (hrnl : '\n' ∉ render) (hrcr : render.getLast? ≠ some '\r')
    (hwf : ∀ l ∈ bl, '\n' ∉ l ∧ l.getLast? ≠ some '\r') :
    splitLinesGo ((("# START ".toList ++ render) ++ ['\n']) ++
      (joinLinesNL bl ++ ("# END ".toList ++ render))) =
      ("# START ".toList ++ render) :: (bl ++ ["# END ".toList ++ render]) := by
  have hAnl : '\n' ∉ "# START ".toList ++ render := by
    intro hmem
    rcases List.mem_append.mp hmem with h | h
    · simp at h
    · exact hrnl h
  have hAcr : ("# START ".toList ++ render).getLast? ≠ some '\r' := by
    rw [List.getLast?_append]
    cases hre : render.getLast? with
    | none => decide
    | some x =>
      rw [hre] at hrcr
      simp only [Option.or_some]
      exact hrcr
  have hBnl : '\n' ∉ "# END ".toList ++ render := by
    intro hmem
    rcases List.mem_append.mp hmem with h | h
    · simp at h
    · exact hrnl h
  have hBcr : ("# END ".toList ++ render).getLast? ≠ some '\r' := by
    rw [List.getLast?_append]
    cases hre : render.getLast? with
    | none => decide
    | some x =>
      rw [hre] at hrcr
      simp only [Option.or_some]
      exact hrcr
  have hBne : "# END ".toList ++ render ≠ [] := by simp
  rw [splitLinesGo_append _ _ (Or.inr (List.getLast?_concat _))]
  rw [splitLinesGo_single _ hAnl hAcr]
  cases hbl : bl with
  | nil =>
    show ["# START ".toList ++ render] ++
      splitLinesGo ([] ++ ("# END ".toList ++ render)) = _
    rw [List.nil_append, splitLinesGo_no_nl _ hBnl hBne hBcr]
    rfl
  | cons b bs =>
    rw [splitLinesGo_append _ _ (Or.inr (joinLinesNL_getLast _ (by simp)))]
    rw [splitLinesGo_joinLinesNL _ (fun l hl => (hwf l (hbl ▸ hl)))]
    rw [splitLinesGo_no_nl _ hBnl hBne hBcr]
    simp

theorem getLast_append_ne (a b : Str) (ch : Char) (ha : a.getLast? ≠ some ch)
    (hb : b.getLast? ≠ some ch) : (a ++ b).getLast? ≠ some ch := by
  rw [List.getLast?_append]
  cases hx : b.getLast? with
  | none => simpa using ha
  | some y =>
    rw [hx] at hb
    simpa using hb

theorem takeWhile_ws_append (ind rest : Str) (hws : ind.all goIsSpace = true) :
    (ind ++ '#' :: rest).takeWhile goIsSpace = ind := by
  induction ind with
  | nil =>
    show List.takeWhile goIsSpace ('#' :: rest) = []
    rw [List.takeWhile_cons_of_neg (by decide)]
  | cons c cs ih =>
    have hc : goIsSpace c = true := List.all_eq_true.mp hws c (List.mem_cons_self c cs)
    have hcs : cs.all goIsSpace = true := by
      rw [List.all_eq_true]
      intro x hx
      exact List.all_eq_true.mp hws x (List.mem_cons_of_mem c hx)
    rw [List.cons_append, List.takeWhile_cons_of_pos hc, ih hcs]

/-- C5: indentation composes additively across nesting: if the root file
includes `b` behind whitespace indentation `ind1`, `b` includes `c` behind
whitespace indentation `ind2`, and `c` is a directive-free text (no
carriage returns, no trailing blank line), then every line `l` of `c`
appears in the final output as `ind1 ++ ind2 ++ l`. -/
theorem claim_C5_additive_indentation :
    ∀ (ind1 ind2 cc : Str) (fuel : Nat),
      ind1.all (fun c => c == ' ' || c == '\t') = true →
      ind2.all (fun c => c == ' ' || c == '\t') = true →
      '\r' ∉ cc →
      (∀ l ∈ splitLinesGo cc, isDirectiveLine l = false) →
      splitLinesGo cc ≠ [] →
      (splitLinesGo cc).getLast? ≠ some [] →
      ∀ l ∈ splitLinesGo cc,
        (ind1 ++ (ind2 ++ l)) ∈
          splitLinesGo
            (processFile (chainFS ind1 ind2 cc) (fuel + 3) [['r']] [] true).1 := by
  intro ind1 ind2 cc fuel hi1 hi2 hccr hnd hne hlast l hlmem
  have hws1 : ind1.all goIsSpace = true := by
    rw [List.all_eq_true] at hi1 ⊢
    intro x hx
    have := hi1 x hx
    rcases (by simpa using this : x = ' ' ∨ x = '\t') with h | h <;> subst h <;> decide
  have hws2 : ind2.all goIsSpace = true := by
    rw [List.all_eq_true] at hi2 ⊢
    intro x hx
    have := hi2 x hx
    rcases (by simpa using this : x = ' ' ∨ x = '\t') with h | h <;> subst h <;> decide
  have hnl1 : '\n' ∉ ind1 := by
    intro hmem
    have := List.all_eq_true.mp hi1 _ hmem
    simp at this
  have hnl2 : '\n' ∉ ind2 := by
    intro hmem
    have := List.all_eq_true.mp hi2 _ hmem
    simp at this
  have hcr1 : ind1.getLast? ≠ some '\r' := by
    intro hc
    have := List.all_eq_true.mp hi1 _ (List.mem_of_getLast?_eq_some hc)
    simp at this
  have hcr2 : ind2.getLast? ≠ some '\r' := by
    intro hc
    have := List.all_eq_true.mp hi2 _ (List.mem_of_getLast?_eq_some hc)
    simp at this
  have hLwf : ∀ m ∈ splitLinesGo cc, '\n' ∉ m ∧ m.getLast? ≠ some '\r' := by
    intro m hm
    refine ⟨mem_splitLinesGo_not_nl cc m hm, ?_⟩
    intro hc
    exact hccr (mem_chars_splitLinesGo cc m hm '\r' (List.mem_of_getLast?_eq_some hc))
  -- step 1: expansion of c
  have hlookc : lookupFS (chainFS ind1 ind2 cc) [['c']] = some (.file cc) := rfl
  have hplc : processLines
      (fun p => processIncludePathCore
        (fun q => processFile (chainFS ind1 ind2 cc) fuel q [] false)
        (chainFS ind1 ind2 cc) p)
      [['c']] (splitLinesGo cc) =
      (joinLinesNL (splitLinesGo cc ++ List.replicate 0 []), none) := by
    rw [show List.replicate 0 ([] : Str) = [] from rfl, List.append_nil]
    exact processLines_no_directive _ [['c']] (splitLinesGo cc) hnd
  have hc := processFile_nonroot_body (chainFS ind1 ind2 cc) fuel [['c']] []
    cc (splitLinesGo cc) 0 hlookc hplc hne (fun m hm => (hLwf m hm).1) hlast
  rw [show markerStartLine (relComps [] [['c']]) = ("# START c".toList ++ ['\n']) from rfl,
    show "# END ".toList ++ renderPath (relComps [] [['c']]) ++ ['\n'] =
      "# END c".toList ++ ['\n'] from rfl] at hc
  -- lines of the trimmed c-result
  have hsplitc : splitLinesGo (("# START c".toList ++ ['\n']) ++
      (joinLinesNL (splitLinesGo cc) ++ "# END c".toList)) =
      "# START c".toList :: (splitLinesGo cc ++ ["# END c".toList]) := by
    have := splitLines_marker_wrap ['c'] (splitLinesGo cc) (by decide) (by decide) hLwf
    simpa using this
  -- step 2: expansion of b
  have hlookb : lookupFS (chainFS ind1 ind2 cc) [['b']] =
      some (.file (ind2 ++ "#include: c\n".toList)) := rfl
  have hlineb : splitLinesGo (ind2 ++ "#include: c\n".toList) =
      [ind2 ++ "#include: c".toList] := by
    rw [show ind2 ++ "#include: c\n".toList =
      (ind2 ++ "#include: c".toList) ++ ['\n'] by simp]
    refine splitLinesGo_single _ ?_ ?_
    · intro hmem
      rcases List.mem_append.mp hmem with h | h
      · exact hnl2 h
      · simp at h
    · exact getLast_append_ne ind2 _ '\r' hcr2 (by decide)
  have htrb : goTrimSpaceL (ind2 ++ "#include: c".toList) = "#include: c".toList := by
    rw [goTrimSpaceL_ws_append _ _ hws2]
    decide
  have hdirb : startsWithL includeMarker
      (goTrimSpaceL (ind2 ++ "#include: c".toList)) = true := by
    rw [htrb]
    decide
  have hempb : goTrimSpaceL (trimPrefixL includeMarker
      (goTrimSpaceL (ind2 ++ "#include: c".toList))) ≠ [] := by
    rw [htrb]
    decide
  have hpathb : goJoin (List.dropLast [['b']])
      (goTrimSpaceL (trimPrefixL includeMarker
        (goTrimSpaceL (ind2 ++ "#include: c".toList)))) = [['c']] := by
    rw [htrb]
    decide
  have hcapb : captureIndent (ind2 ++ "#include: c".toList) = ind2 := by
    have h2 := (directive_capture (ind2 ++ "#include: c".toList) hdirb).2.1
    rw [h2]
    exact takeWhile_ws_append ind2 "include: c".toList hws2
  have hcres : processIncludePathCore
      (fun q => processFile (chainFS ind1 ind2 cc) (fuel + 1) q [] false)
      (chainFS ind1 ind2 cc)
      (goJoin (List.dropLast [['b']])
        (goTrimSpaceL (trimPrefixL includeMarker
          (goTrimSpaceL (ind2 ++ "#include: c".toList))))) =
      ((("# START c".toList ++ ['\n']) ++
        (joinLinesNL (splitLinesGo cc) ++ "# END c".toList)) ++ ['\n'], none) := by
    rw [hpathb]
    rw [processIncludePathCore_file _ _ [['c']] cc hlookc]
    rw [hc]
    simp
  have hicb : indentContent (captureIndent (ind2 ++ "#include: c".toList))
      ((("# START c".toList ++ ['\n']) ++
        (joinLinesNL (splitLinesGo cc) ++ "# END c".toList)) ++ ['\n']) =
      joinLinesNL (("# START c".toList :: (splitLinesGo cc ++ ["# END c".toList])).map
        (fun m => ind2 ++ m)) := by
    rw [hcapb]
    simp only [indentContent]
    rw [trimSuffix_concat_nl]
    rw [if_neg (by simp)]
    rw [hsplitc]
  have hplb : processLines
      (fun p => processIncludePathCore
        (fun q => processFile (chainFS ind1 ind2 cc) (fuel + 1) q [] false)
        (chainFS ind1 ind2 cc) p)
      [['b']] (splitLinesGo (ind2 ++ "#include: c\n".toList)) =
      (joinLinesNL ((("# START c".toList :: (splitLinesGo cc ++ ["# END c".toList])).map
        (fun m => ind2 ++ m)) ++ List.replicate 1 []), none) := by
    rw [hlineb]
    rw [processLines_cons_dir_ok _ [['b']] _ [] _ [] hdirb hempb hcres rfl]
    rw [hicb]
    rw [joinLinesNL_append]
    rfl
  have hmapbwf : ∀ x ∈ (("# START c".toList :: (splitLinesGo cc ++ ["# END c".toList])).map
      (fun m => ind2 ++ m)), '\n' ∉ x ∧ x.getLast? ≠ some '\r' := by
    intro x hx
    obtain ⟨m, hm, rfl⟩ := List.mem_map.mp hx
    have hmwf : '\n' ∉ m ∧ m.getLast? ≠ some '\r' := by
      rcases List.mem_cons.mp hm with hm | hm
      · subst hm; exact ⟨by decide, by decide⟩
      · rcases List.mem_append.mp hm with hm | hm
        · exact hLwf m hm
        · rw [List.mem_singleton.mp hm]; exact ⟨by decide, by decide⟩
    constructor
    · intro hmem
      rcases List.mem_append.mp hmem with h | h
      · exact hnl2 h
      · exact hmwf.1 h
    · exact getLast_append_ne ind2 m '\r' hcr2 hmwf.2
  have hmapbne : (("# START c".toList :: (splitLinesGo cc ++ ["# END c".toList])).map
      (fun m => ind2 ++ m)) ≠ [] := by simp
  have hmapblast : (("# START c".toList :: (splitLinesGo cc ++ ["# END c".toList])).map
      (fun m => ind2 ++ m)).getLast? ≠ some [] := by
    rw [List.getLast?_map]
    rw [show ("# START c".toList :: (splitLinesGo cc ++ ["# END c".toList])).getLast? =
        some "# END c".toList by
      rw [show "# START c".toList :: (splitLinesGo cc ++ ["# END c".toList]) =
        ("# START c".toList :: splitLinesGo cc) ++ ["# END c".toList] by simp]
      exact List.getLast?_concat _]
    simp
  have hb := processFile_nonroot_body (chainFS ind1 ind2 cc) (fuel + 1) [['b']] []
    (ind2 ++ "#include: c\n".toList)
    (("# START c".toList :: (splitLinesGo cc ++ ["# END c".toList])).map
      (fun m => ind2 ++ m)) 1
    hlookb hplb hmapbne (fun x hx => (hmapbwf x hx).1) hmapblast
  rw [show markerStartLine (relComps [] [['b']]) = ("# START b".toList ++ ['\n']) from rfl,
    show "# END ".toList ++ renderPath (relComps [] [['b']]) ++ ['\n'] =
      "# END b".toList ++ ['\n'] from rfl] at hb
  -- step 3: the root file
  have hlookr : lookupFS (chainFS ind1 ind2 cc) [['r']] =
      some (.file (ind1 ++ "#include: b\n".toList)) := rfl
  have hliner : splitLinesGo (ind1 ++ "#include: b\n".toList) =
      [ind1 ++ "#include: b".toList] := by
    rw [show ind1 ++ "#include: b\n".toList =
      (ind1 ++ "#include: b".toList) ++ ['\n'] by simp]
    refine splitLinesGo_single _ ?_ ?_
    · intro hmem
      rcases List.mem_append.mp hmem with h | h
      · exact hnl1 h
      · simp at h
    · exact getLast_append_ne ind1 _ '\r' hcr1 (by decide)
  have htrr : goTrimSpaceL (ind1 ++ "#include: b".toList) = "#include: b".toList := by
    rw [goTrimSpaceL_ws_append _ _ hws1]
    decide
  have hdirr : startsWithL includeMarker
      (goTrimSpaceL (ind1 ++ "#include: b".toList)) = true := by
    rw [htrr]
    decide
  have hempr : goTrimSpaceL (trimPrefixL includeMarker
      (goTrimSpaceL (ind1 ++ "#include: b".toList))) ≠ [] := by
    rw [htrr]
    decide
  have hpathr : goJoin (List.dropLast [['r']])
      (goTrimSpaceL (trimPrefixL includeMarker
        (goTrimSpaceL (ind1 ++ "#include: b".toList)))) = [['b']] := by
    rw [htrr]
    decide
  have hcapr : captureIndent (ind1 ++ "#include: b".toList) = ind1 := by
    have h2 := (directive_capture (ind1 ++ "#include: b".toList) hdirr).2.1
    rw [h2]
    exact takeWhile_ws_append ind1 "include: b".toList hws1
  have hbres : processIncludePathCore
      (fun q => processFile (chainFS ind1 ind2 cc) (fuel + 2) q [] false)
      (chainFS ind1 ind2 cc)
      (goJoin (List.dropLast [['r']])
        (goTrimSpaceL (trimPrefixL includeMarker
          (goTrimSpaceL (ind1 ++ "#include: b".toList))))) =
      ((("# START b".toList ++ ['\n']) ++
        (joinLinesNL (("# START c".toList :: (splitLinesGo cc ++ ["# END c".toList])).map
          (fun m => ind2 ++ m)) ++ "# END b".toList)) ++ ['\n'], none) := by
    rw [hpathr]
    rw [processIncludePathCore_file _ _ [['b']] (ind2 ++ "#include: c\n".toList) hlookb]
    rw [show (fuel + 2) = (fuel + 1) + 1 from rfl]
    rw [hb]
    simp
  have hsplitb : splitLinesGo (("# START b".toList ++ ['\n']) ++
      (joinLinesNL (("# START c".toList :: (splitLinesGo cc ++ ["# END c".toList])).map
        (fun m => ind2 ++ m)) ++ "# END b".toList)) =
      "# START b".toList ::
        ((("# START c".toList :: (splitLinesGo cc ++ ["# END c".toList])).map
          (fun m => ind2 ++ m)) ++ ["# END b".toList]) := by
    have := splitLines_marker_wrap ['b']
      (("# START c".toList :: (splitLinesGo cc ++ ["# END c".toList])).map
        (fun m => ind2 ++ m)) (by decide) (by decide) hmapbwf
    simpa using this
  have hicr : indentContent (captureIndent (ind1 ++ "#include: b".toList))
      ((("# START b".toList ++ ['\n']) ++
        (joinLinesNL (("# START c".toList :: (splitLinesGo cc ++ ["# END c".toList])).map
          (fun m => ind2 ++ m)) ++ "# END b".toList)) ++ ['\n']) =
      joinLinesNL (("# START b".toList ::
        ((("# START c".toList :: (splitLinesGo cc ++ ["# END c".toList])).map
          (fun m => ind2 ++ m)) ++ ["# END b".toList])).map
        (fun m => ind1 ++ m)) := by
    rw [hcapr]
    simp only [indentContent]
    rw [trimSuffix_concat_nl]
    rw [if_neg (by simp)]
    rw [hsplitb]
  have hplr : processLines
      (fun p => processIncludePathCore
        (fun q => processFile (chainFS ind1 ind2 cc) (fuel + 2) q [] false)
        (chainFS ind1 ind2 cc) p)
      [['r']] (splitLinesGo (ind1 ++ "#include: b\n".toList)) =
      (joinLinesNL (("# START b".toList ::
        ((("# START c".toList :: (splitLinesGo cc ++ ["# END c".toList])).map
          (fun m => ind2 ++ m)) ++ ["# END b".toList])).map
        (fun m => ind1 ++ m)) ++ ['\n'], none) := by
    rw [hliner]
    rw [processLines_cons_dir_ok _ [['r']] _ [] _ [] hdirr hempr hbres rfl]
    rw [hicr]
  -- final assembly
  rw [show (fuel + 3) = (fuel + 2) + 1 from rfl, processFile_succ]
  rw [processFileCore_file_root _ _ [['r']] [] (ind1 ++ "#include: b\n".toList) _ hlookr hplr]
  rw [show joinLinesNL (("# START b".toList ::
      ((("# START c".toList :: (splitLinesGo cc ++ ["# END c".toList])).map
        (fun m => ind2 ++ m)) ++ ["# END b".toList])).map
      (fun m => ind1 ++ m)) ++ ['\n'] =
    joinLinesNL ((("# START b".toList ::
      ((("# START c".toList :: (splitLinesGo cc ++ ["# END c".toList])).map
        (fun m => ind2 ++ m)) ++ ["# END b".toList])).map
      (fun m => ind1 ++ m)) ++ [[]]) by
    rw [joinLinesNL_append]
    rfl]
  rw [splitLinesGo_joinLinesNL]
  · -- membership
    refine List.mem_append_left _ ?_
    refine List.mem_map.mpr ⟨ind2 ++ l, ?_, rfl⟩
    refine List.mem_cons_of_mem _ ?_
    refine List.mem_append_left _ ?_
    exact List.mem_map.mpr ⟨l, List.mem_cons_of_mem _ (List.mem_append_left _ hlmem), rfl⟩
  · -- well-formedness of all emitted lines
    intro x hx
    rcases List.mem_append.mp hx with hx | hx
    · obtain ⟨m, hm, rfl⟩ := List.mem_map.mp hx
      have hmwf : '\n' ∉ m ∧ m.getLast? ≠ some '\r' := by
        rcases List.mem_cons.mp hm with hm | hm
        · subst hm; exact ⟨by decide, by decide⟩
        · rcases List.mem_append.mp hm with hm | hm
          · exact hmapbwf m hm
          · rw [List.mem_singleton.mp hm]; exact ⟨by decide, by decide⟩
      constructor
      · intro hmem
        rcases List.mem_append.mp hmem with h | h
        · exact hnl1 h
        · exact hmwf.1 h
      · exact getLast_append_ne ind1 m '\r' hcr1 hmwf.2
    · rw [List.mem_singleton.mp hx]
      exact ⟨by simp, by simp⟩

/-- Witness for C5: with outer indentation of two spaces and inner of four,
the line `hi` of the innermost file appears with six spaces in the output. -/
theorem claim_C5_additive_indentation_witness :
    ("  ".toList ++ ("    ".toList ++ "hi".toList)) ∈
      splitLinesGo (processFile
        (chainFS "  ".toList "    ".toList "hi\n".toList) 3 [['r']] [] true).1 :=
  claim_C5_additive_indentation "  ".toList "    ".toList "hi\n".toList 0
    (by decide) (by decide) (by decide) (by decide) (by decide) (by decide)
    "hi".toList (by decide)

/-! ## The lexical sort of directory entries -/

theorem strLe_refl (a : Str) : strLe a a = true := by
  induction a with
  | nil => rfl
  | cons x xs ih => simp [strLe, ih]

theorem strLe_total (a b : Str) : strLe a b = true ∨ strLe b a = true := by
  induction a generalizing b with
  | nil => left; rfl
  | cons x xs ih =>
    cases b with
    | nil => right; rfl
    | cons y ys =>
      by_cases hxy : x = y
      · subst hxy
        simp only [strLe, if_pos rfl]
        exact ih ys
      · rcases lt_or_gt_of_ne hxy with h | h
        · left; simp [strLe, hxy, h]
        · right
          simp only [strLe]
          rw [if_neg (fun hc => hxy hc.symm)]
          simpa using h

theorem strLe_trans (a b c : Str) (hab : strLe a b = true) (hbc : strLe b c = true) :
    strLe a c = true := by
  induction a generalizing b c with
  | nil => rfl
  | cons x xs ih =>
    cases b with
    | nil => simp [strLe] at hab
    | cons y ys =>
      cases c with
      | nil => simp [strLe] at hbc
      | cons z zs =>
        simp only [strLe] at hab hbc ⊢
        by_cases hxy : x = y
        · subst hxy
          rw [if_pos rfl] at hab
          by_cases hyz : x = z
          · subst hyz
            rw [if_pos rfl] at hbc
            rw [if_pos rfl]
            exact ih ys zs hab hbc
          · rw [if_neg hyz] at hbc
            rw [if_neg hyz]
            exact hbc
        · rw [if_neg hxy] at hab
          by_cases hyz : y = z
          · subst hyz
            rw [if_neg hxy]
            exact hab
          · rw [if_neg hyz] at hbc
            have hxz : x < z :=
              lt_trans (by simpa using hab) (by simpa using hbc)
            rw [if_neg (ne_of_lt hxz)]
            simp [hxz]

theorem mem_insertEnt (e x : Str × FSTree) (l : List (Str × FSTree)) :
    x ∈ insertEnt e l ↔ x = e ∨ x ∈ l := by
  induction l with
  | nil => simp [insertEnt]
  | cons f rest ih =>
    simp only [insertEnt]
    by_cases h : strLe e.1 f.1 = true
    · rw [if_pos h]
      simp [List.mem_cons]
    · rw [if_neg h]
      simp only [List.mem_cons, ih]
      tauto

theorem find?_cons_pos (p : Str × FSTree → Bool) (a : Str × FSTree)
    (l : List (Str × FSTree)) (h : p a = true) :
    List.find? p (a :: l) = some a := by
  rw [List.find?_cons, h]

theorem find?_cons_neg (p : Str × FSTree → Bool) (a : Str × FSTree)
    (l : List (Str × FSTree)) (h : p a = false) :
    List.find? p (a :: l) = List.find? p l := by
  rw [List.find?_cons, h]

theorem find?_insertEnt_of_ne (e : Str × FSTree) (l : List (Str × FSTree)) (n : Str)
    (he : (e.1 == n) = false) :
    (insertEnt e l).find? (fun f => f.1 == n) = l.find? (fun f => f.1 == n) := by
  induction l with
  | nil => simp [insertEnt, List.find?, he]
  | cons f rest ih =>
    simp only [insertEnt]
    by_cases h : strLe e.1 f.1 = true
    · rw [if_pos h]
      rw [find?_cons_neg (fun f => f.1 == n) e _ he]
    · rw [if_neg h]
      by_cases hf : (f.1 == n) = true
      · rw [find?_cons_pos (fun f => f.1 == n) f _ hf,
          find?_cons_pos (fun f => f.1 == n) f _ hf]
      · rw [find?_cons_neg (fun f => f.1 == n) f _ (by simpa using hf),
          find?_cons_neg (fun f => f.1 == n) f _ (by simpa using hf)]
        exact ih

theorem find?_insertEnt_of_eq (e : Str × FSTree) (l : List (Str × FSTree)) (n : Str)
    (he : (e.1 == n) = true) :
    (insertEnt e l).find? (fun f => f.1 == n) = some e := by
  induction l with
  | nil => simp [insertEnt, List.find?, he]
  | cons f rest ih =>
    simp only [insertEnt]
    by_cases h : strLe e.1 f.1 = true
    · rw [if_pos h]
      rw [find?_cons_pos (fun f => f.1 == n) e _ he]
    · rw [if_neg h]
      have hfne : (f.1 == n) = false := by
        have hne : f.1 ≠ e.1 := by
          intro hc
          rw [hc] at h
          exact h (strLe_refl e.1)
        have hen : e.1 = n := by simpa using he
        simp [hen ▸ hne]
      rw [find?_cons_neg (fun f => f.1 == n) f _ hfne]
      exact ih

theorem find?_sortEnt (l : List (Str × FSTree)) (n : Str) :
    (sortEnt l).find? (fun f => f.1 == n) = l.find? (fun f => f.1 == n) := by
  induction l with
  | nil => rfl
  | cons e rest ih =>
    show (insertEnt e (sortEnt rest)).find? (fun f => f.1 == n) = _
    by_cases he : (e.1 == n) = true
    · rw [find?_insertEnt_of_eq e _ n he, find?_cons_pos (fun f => f.1 == n) e _ he]
    · rw [find?_insertEnt_of_ne e _ n (by simpa using he), ih,
        find?_cons_neg (fun f => f.1 == n) e _ (by simpa using he)]

theorem find?_normEnts (es : List (Str × FSTree)) (n : Str) :
    (normEnts es).find? (fun f => f.1 == n) =
      (es.find? (fun f => f.1 == n)).map (fun e => (e.1, normFS e.2)) := by
  induction es with
  | nil => rfl
  | cons e rest ih =>
    show ((e.1, normFS e.2) :: normEnts rest).find? (fun f => f.1 == n) = _
    by_cases he : (e.1 == n) = true
    · rw [find?_cons_pos (fun f => f.1 == n) (e.1, normFS e.2) _ (by simpa using he),
        find?_cons_pos (fun f => f.1 == n) e _ he]
      rfl
    · rw [find?_cons_neg (fun f => f.1 == n) (e.1, normFS e.2) _ (by simpa using he),
        find?_cons_neg (fun f => f.1 == n) e _ (by simpa using he), ih]

theorem lookupFS_normFS (p : FPath) :
    ∀ t, lookupFS (normFS t) p = (lookupFS t p).map normFS := by
  induction p with
  | nil => intro t; cases t <;> rfl
  | cons n rest ih =>
    intro t
    cases t with
    | file c => rfl
    | dir es =>
      show lookupFS (.dir (sortEnt (normEnts es))) (n :: rest) = _
      simp only [lookupFS]
      rw [find?_sortEnt, find?_normEnts]
      cases hf : es.find? (fun e => e.1 == n) with
      | none => rfl
      | some e =>
        simp only [Option.map_some]
        exact ih e.2

theorem insertEnt_pairwise (e : Str × FSTree) (l : List (Str × FSTree))
    (h : l.Pairwise (fun a b => strLe a.1 b.1 = true)) :
    (insertEnt e l).Pairwise (fun a b => strLe a.1 b.1 = true) := by
  induction l with
  | nil => simp [insertEnt]
  | cons f rest ih =>
    simp only [insertEnt]
    rcases List.pairwise_cons.mp h with ⟨hf, hrest⟩
    by_cases hef : strLe e.1 f.1 = true
    · rw [if_pos hef]
      refine List.pairwise_cons.mpr ⟨?_, h⟩
      intro b hb
      rcases List.mem_cons.mp hb with hb | hb
      · rw [hb]; exact hef
      · exact strLe_trans e.1 f.1 b.1 hef (hf b hb)
    · rw [if_neg hef]
      refine List.pairwise_cons.mpr ⟨?_, ih hrest⟩
      intro b hb
      rcases (mem_insertEnt e b rest).mp hb with hb | hb
      · rw [hb]
        rcases strLe_total e.1 f.1 with hh | hh
        · exact absurd hh hef
        · exact hh
      · exact hf b hb

theorem sortEnt_pairwise (l : List (Str × FSTree)) :
    (sortEnt l).Pairwise (fun a b => strLe a.1 b.1 = true) := by
  induction l with
  | nil => simp [sortEnt]
  | cons e rest ih => exact insertEnt_pairwise e (sortEnt rest) ih

theorem sortEnt_of_pairwise (l : List (Str × FSTree))
    (h : l.Pairwise (fun a b => strLe a.1 b.1 = true)) : sortEnt l = l := by
  induction l with
  | nil => rfl
  | cons e rest ih =>
    rcases List.pairwise_cons.mp h with ⟨he, hrest⟩
    show insertEnt e (sortEnt rest) = e :: rest
    rw [ih hrest]
    cases rest with
    | nil => rfl
    | cons f rest2 =>
      show (if strLe e.1 f.1 then e :: f :: rest2 else f :: insertEnt e rest2) = _
      rw [if_pos (he f (List.mem_cons_self f rest2))]

theorem sortEnt_idem (l : List (Str × FSTree)) : sortEnt (sortEnt l) = sortEnt l :=
  sortEnt_of_pairwise _ (sortEnt_pairwise l)

theorem normEnts_eq_map (es : List (Str × FSTree)) :
    normEnts es = es.map (fun e => (e.1, normFS e.2)) := by
  induction es with
  | nil => rfl
  | cons e rest ih =>
    show (e.1, normFS e.2) :: normEnts rest = _
    rw [ih]
    rfl

theorem insertEnt_map_normFS (e : Str × FSTree) (l : List (Str × FSTree)) :
    insertEnt (e.1, normFS e.2) (l.map (fun f => (f.1, normFS f.2))) =
      (insertEnt e l).map (fun f => (f.1, normFS f.2)) := by
  induction l with
  | nil => rfl
  | cons f rest ih =>
    show (if strLe e.1 f.1 then _ else _) = _
    by_cases h : strLe e.1 f.1 = true
    · rw [if_pos h]
      show _ = ((if strLe e.1 f.1 then e :: f :: rest
        else f :: insertEnt e rest).map (fun f => (f.1, normFS f.2)))
      rw [if_pos h]
      rfl
    · rw [if_neg h]
      show (f.1, normFS f.2) :: insertEnt (e.1, normFS e.2)
          (rest.map (fun f => (f.1, normFS f.2))) =
        ((if strLe e.1 f.1 then e :: f :: rest
          else f :: insertEnt e rest).map (fun f => (f.1, normFS f.2)))
      rw [if_neg h, ih]
      rfl

theorem sortEnt_map_normFS (l : List (Str × FSTree)) :
    sortEnt (l.map (fun f => (f.1, normFS f.2))) =
      (sortEnt l).map (fun f => (f.1, normFS f.2)) := by
  induction l with
  | nil => rfl
  | cons e rest ih =>
    show insertEnt (e.1, normFS e.2) (sortEnt (rest.map (fun f => (f.1, normFS f.2)))) = _
    rw [ih]
    rw [insertEnt_map_normFS]
    rfl

theorem fsSize_pos (t : FSTree) : 1 ≤ fsSize t := by
  cases t with
  | file c => exact le_refl 1
  | dir es => simp [fsSize]

theorem fsSize_mem_le (es : List (Str × FSTree)) (e : Str × FSTree) (he : e ∈ es) :
    fsSize e.2 ≤ entsSize es := by
  induction es with
  | nil => simp at he
  | cons f rest ih =>
    rcases List.mem_cons.mp he with he | he
    · subst he
      show fsSize e.2 ≤ fsSize e.2 + entsSize rest
      omega
    · have := ih he
      show fsSize e.2 ≤ fsSize f.2 + entsSize rest
      omega

theorem normFS_idem_aux : ∀ n t, fsSize t ≤ n → normFS (normFS t) = normFS t := by
  intro n
  induction n with
  | zero =>
    intro t ht
    have := fsSize_pos t
    omega
  | succ n ih =>
    intro t ht
    cases t with
    | file c => rfl
    | dir es =>
      show normFS (.dir (sortEnt (normEnts es))) = .dir (sortEnt (normEnts es))
      show FSTree.dir (sortEnt (normEnts (sortEnt (normEnts es)))) = _
      have hmm : normEnts (sortEnt (normEnts es)) = sortEnt (normEnts (normEnts es)) := by
        rw [normEnts_eq_map (sortEnt (normEnts es)), ← sortEnt_map_normFS (normEnts es),
          ← normEnts_eq_map (normEnts es)]
      have hnn : normEnts (normEnts es) = normEnts es := by
        rw [normEnts_eq_map es, normEnts_eq_map (es.map (fun e => (e.1, normFS e.2)))]
        rw [List.map_map]
        apply List.map_congr_left
        intro e he
        show (e.1, normFS (normFS e.2)) = (e.1, normFS e.2)
        have hsz : fsSize e.2 ≤ n := by
          have h1 := fsSize_mem_le es e he
          have h2 : entsSize es + 1 ≤ n + 1 := ht
          omega
        rw [ih e.2 hsz]
      rw [hmm, hnn, sortEnt_idem]

theorem normFS_idempotent (t : FSTree) : normFS (normFS t) = normFS t :=
  normFS_idem_aux (fsSize t) t (le_refl _)

theorem allFilesList_eq_flatten (es : List (Str × FSTree)) (p : FPath) :
    allFilesList es p = (es.map (fun e => allFilesRaw e.2 (p ++ [e.1]))).flatten := by
  induction es with
  | nil => rfl
  | cons e rest ih =>
    show allFilesRaw e.2 (p ++ [e.1]) ++ allFilesList rest p = _
    rw [ih]
    rfl

theorem insertEnt_perm (e : Str × FSTree) (l : List (Str × FSTree)) :
    List.Perm (insertEnt e l) (e :: l) := by
  induction l with
  | nil => exact List.Perm.refl _
  | cons f rest ih =>
    show List.Perm (if strLe e.1 f.1 then e :: f :: rest else f :: insertEnt e rest) _
    by_cases h : strLe e.1 f.1 = true
    · rw [if_pos h]
    · rw [if_neg h]
      exact (List.Perm.cons f ih).trans (List.Perm.swap e f rest)

theorem sortEnt_perm (l : List (Str × FSTree)) : List.Perm (sortEnt l) l := by
  induction l with
  | nil => exact List.Perm.refl _
  | cons e rest ih =>
    exact (insertEnt_perm e (sortEnt rest)).trans (List.Perm.cons e ih)

theorem allFilesList_sortEnt_perm (es : List (Str × FSTree)) (p : FPath) :
    List.Perm (allFilesList (sortEnt es) p) (allFilesList es p) := by
  rw [allFilesList_eq_flatten, allFilesList_eq_flatten]
  exact ((sortEnt_perm es).map _).flatten

theorem allFilesRaw_normFS_perm_aux : ∀ n t p, fsSize t ≤ n →
    List.Perm (allFilesRaw (normFS t) p) (allFilesRaw t p) := by
  intro n
  induction n with
  | zero =>
    intro t p ht
    have := fsSize_pos t
    omega
  | succ n ih =>
    intro t p ht
    cases t with
    | file c => exact List.Perm.refl _
    | dir es =>
      show List.Perm (allFilesList (sortEnt (normEnts es)) p) (allFilesList es p)
      refine (allFilesList_sortEnt_perm (normEnts es) p).trans ?_
      have hlist : ∀ es2 : List (Str × FSTree),
          (∀ e ∈ es2, fsSize e.2 ≤ n) →
          List.Perm (allFilesList (normEnts es2) p) (allFilesList es2 p) := by
        intro es2
        induction es2 with
        | nil => intro _; exact List.Perm.refl _
        | cons e rest ih2 =>
          intro hsz
          show List.Perm
            (allFilesRaw (normFS e.2) (p ++ [e.1]) ++ allFilesList (normEnts rest) p)
            (allFilesRaw e.2 (p ++ [e.1]) ++ allFilesList rest p)
          exact List.Perm.append
            (ih e.2 (p ++ [e.1]) (hsz e (List.mem_cons_self e rest)))
            (ih2 (fun f hf => hsz f (List.mem_cons_of_mem e hf)))
      refine hlist es ?_
      intro e he
      have h1 := fsSize_mem_le es e he
      have h2 : entsSize es + 1 ≤ n + 1 := ht
      omega

theorem walkCollect_perm (t : FSTree) (p : FPath) :
    List.Perm (walkCollect t p) (allFilesRaw t p) :=
  allFilesRaw_normFS_perm_aux (fsSize t) t p (le_refl _)

theorem processFileCore_normFS (pip : FPath → PRes) (fs : FSTree) (fp rd : FPath)
    (ir : Bool) :
    processFileCore pip (normFS fs) fp rd ir = processFileCore pip fs fp rd ir := by
  cases hl : lookupFS fs fp with
  | none =>
    have hln : lookupFS (normFS fs) fp = none := by
      rw [lookupFS_normFS, hl]
      rfl
    rw [processFileCore_none pip _ fp rd ir hln, processFileCore_none pip fs fp rd ir hl]
  | some t =>
    cases t with
    | dir es =>
      have hln : lookupFS (normFS fs) fp = some (.dir (sortEnt (normEnts es))) := by
        rw [lookupFS_normFS, hl]
        rfl
      rw [processFileCore_dir pip _ fp rd ir _ hln, processFileCore_dir pip fs fp rd ir es hl]
    | file c =>
      have hln : lookupFS (normFS fs) fp = some (.file c) := by
        rw [lookupFS_normFS, hl]
        rfl
      rcases hpl : processLines pip fp (splitLinesGo c) with ⟨b, oe⟩
      cases oe with
      | some e =>
        rw [processFileCore_file_err pip _ fp rd ir c b e hln hpl,
          processFileCore_file_err pip fs fp rd ir c b e hl hpl]
      | none =>
        cases ir with
        | true =>
          rw [processFileCore_file_root pip _ fp rd c b hln hpl,
            processFileCore_file_root pip fs fp rd c b hl hpl]
        | false =>
          rw [processFileCore_file_nonroot pip _ fp rd c b hln hpl,
            processFileCore_file_nonroot pip fs fp rd c b hl hpl]

theorem processIncludePathCore_normFS (pf : FPath → PRes) (fs : FSTree) (p : FPath) :
    processIncludePathCore pf (normFS fs) p = processIncludePathCore pf fs p := by
  cases hl : lookupFS fs p with
  | none =>
    have hln : lookupFS (normFS fs) p = none := by
      rw [lookupFS_normFS, hl]
      rfl
    rw [processIncludePathCore_none pf _ p hln, processIncludePathCore_none pf fs p hl]
  | some t =>
    cases t with
    | file c =>
      have hln : lookupFS (normFS fs) p = some (.file c) := by
        rw [lookupFS_normFS, hl]
        rfl
      rw [processIncludePathCore_file pf _ p c hln, processIncludePathCore_file pf fs p c hl]
    | dir es =>
      have hln : lookupFS (normFS fs) p = some (.dir (sortEnt (normEnts es))) := by
        rw [lookupFS_normFS, hl]
        rfl
      rw [processIncludePathCore_dir pf _ p _ hln, processIncludePathCore_dir pf fs p es hl]
      have hwc : walkCollect (.dir (sortEnt (normEnts es))) p = walkCollect (.dir es) p := by
        show allFilesRaw (normFS (normFS (.dir es))) p = allFilesRaw (normFS (.dir es)) p
        rw [normFS_idempotent]
      rw [hwc]

theorem processFile_normFS (fs : FSTree) :
    ∀ fuel fp rd ir, processFile (normFS fs) fuel fp rd ir =
      processFile fs fuel fp rd ir := by
  intro fuel
  induction fuel with
  | zero => intro fp rd ir; rfl
  | succ n ihn =>
    intro fp rd ir
    rw [processFile_succ, processFile_succ]
    have hpf : (fun q => processFile (normFS fs) n q rd false) =
        (fun q => processFile fs n q rd false) :=
      funext fun q => ihn q rd false
    rw [hpf]
    have hpip : (fun p => processIncludePathCore
        (fun q => processFile fs n q rd false) (normFS fs) p) =
        (fun p => processIncludePathCore
          (fun q => processFile fs n q rd false) fs p) :=
      funext fun p => processIncludePathCore_normFS _ fs p
    rw [hpip]
    exact processFileCore_normFS _ fs fp rd ir

theorem processIncludePath_normFS (fs : FSTree) (fuel : Nat) (p rd : FPath) :
    processIncludePath (normFS fs) fuel p rd = processIncludePath fs fuel p rd := by
  show processIncludePathCore (fun q => processFile (normFS fs) fuel q rd false)
    (normFS fs) p = _
  have hpf : (fun q => processFile (normFS fs) fuel q rd false) =
      (fun q => processFile fs fuel q rd false) :=
    funext fun q => processFile_normFS fs fuel q rd false
  rw [hpf]
  exact processIncludePathCore_normFS _ fs p

/-- C7: directory inclusion is deterministic — the resolver's output depends
only on the filesystem's contents, not on the enumeration order of directory
entries (two trees with the same name-sorted normal form give byte-identical
results), and the walk visits exactly the regular files of the subtree
(a permutation of their structural enumeration, each exactly once). -/
theorem claim_C7_deterministic_directory :
    (∀ t1 t2 fuel p rd, normFS t1 = normFS t2 →
      processIncludePath t1 fuel p rd = processIncludePath t2 fuel p rd) ∧
    (∀ t p, List.Perm (walkCollect t p) (allFilesRaw t p)) := by
  constructor
  · intro t1 t2 fuel p rd h
    calc processIncludePath t1 fuel p rd
        = processIncludePath (normFS t1) fuel p rd :=
          (processIncludePath_normFS t1 fuel p rd).symm
      _ = processIncludePath (normFS t2) fuel p rd := by rw [h]
      _ = processIncludePath t2 fuel p rd := processIncludePath_normFS t2 fuel p rd
  · exact walkCollect_perm

/-- Witness for C7: the same two-file directory enumerated in two different
orders expands to identical output. -/
theorem claim_C7_deterministic_directory_witness :
    processIncludePath exWalkFS1 3 [['d']] [] =
      processIncludePath exWalkFS2 3 [['d']] [] :=
  claim_C7_deterministic_directory.1 exWalkFS1 exWalkFS2 3 [['d']] [] rfl

/-! ## Line provenance of the expansion output -/

theorem exists_core_repl (ls : List Str) :
    ∃ core k, ls = core ++ List.replicate k ([] : Str) ∧ core.getLast? ≠ some [] := by
  induction ls with
  | nil => exact ⟨[], 0, rfl, by simp⟩
  | cons a rest ih =>
    obtain ⟨core, k, heq, hlast⟩ := ih
    cases core with
    | nil =>
      by_cases ha : a = []
      · subst ha
        refine ⟨[], k + 1, ?_, by simp⟩
        rw [heq]
        rfl
      · exact ⟨[a], k, by rw [heq]; rfl, by simp [ha]⟩
    | cons c core2 =>
      refine ⟨a :: c :: core2, k, by rw [heq]; rfl, ?_⟩
      rw [List.getLast?_cons_cons]
      rw [show (c :: core2).getLast? = (c :: core2).getLast? from rfl] at hlast
      exact hlast

theorem entsWF_mem (es : List (Str × FSTree)) (e : Str × FSTree)
    (hwf : entsWF es = true) (he : e ∈ es) :
    e.1.all (fun ch => ch != '\n' && ch != '\r') = true ∧ fsWF e.2 = true := by
  induction es with
  | nil => simp at he
  | cons f rest ih =>
    have hwf2 : f.1.all (fun ch => ch != '\n' && ch != '\r') = true ∧
        fsWF f.2 = true ∧ entsWF rest = true := by
      have h0 : ((f.1.all (fun ch => ch != '\n' && ch != '\r') && fsWF f.2) &&
          entsWF rest) = true := hwf
      simp only [Bool.and_eq_true] at h0
      exact ⟨h0.1.1, h0.1.2, h0.2⟩
    rcases List.mem_cons.mp he with he | he
    · subst he
      exact ⟨hwf2.1, hwf2.2.1⟩
    · exact ih hwf2.2.2 he

theorem lookup_wf (fp : FPath) :
    ∀ fs t, fsWF fs = true → lookupFS fs fp = some t →
      fsWF t = true ∧ ∀ comp ∈ fp, ∀ c ∈ comp, c ≠ '\n' ∧ c ≠ '\r' := by
  induction fp with
  | nil =>
    intro fs t hwf hl
    have : t = fs := by
      cases fs <;> simpa [lookupFS] using hl.symm
    subst this
    exact ⟨hwf, by simp⟩
  | cons n rest ih =>
    intro fs t hwf hl
    cases fs with
    | file c => simp [lookupFS] at hl
    | dir es =>
      simp only [lookupFS] at hl
      cases hf : es.find? (fun e => e.1 == n) with
      | none => rw [hf] at hl; simp at hl
      | some e =>
        rw [hf] at hl
        have hmem := List.mem_of_find?_eq_some hf
        have hname : (e.1 == n) = true := by
          have h5 := List.find?_some hf
          simpa using h5
        have hewf := entsWF_mem es e hwf hmem
        have := ih e.2 t hewf.2 hl
        refine ⟨this.1, ?_⟩
        intro comp hcomp c hc
        rcases List.mem_cons.mp hcomp with hcomp | hcomp
        · subst hcomp
          have hn : e.1 = comp := by simpa using hname
          have := List.all_eq_true.mp hewf.1 c (hn ▸ hc)
          simp at this
          exact this
        · exact this.2 comp hcomp c hc

theorem lookup_file_lines (fp : FPath) :
    ∀ fs content, lookupFS fs fp = some (.file content) →
      ∀ l ∈ splitLinesGo content, l ∈ fsAllLines fs := by
  induction fp with
  | nil =>
    intro fs content hl l hline
    have : fs = .file content := by
      cases fs <;> simpa [lookupFS] using hl
    subst this
    exact hline
  | cons n rest ih =>
    intro fs content hl l hline
    cases fs with
    | file c => simp [lookupFS] at hl
    | dir es =>
      simp only [lookupFS] at hl
      cases hf : es.find? (fun e => e.1 == n) with
      | none => rw [hf] at hl; simp at hl
      | some e =>
        rw [hf] at hl
        have hmem := List.mem_of_find?_eq_some hf
        have hsub := ih e.2 content hl l hline
        show l ∈ entsAllLines es
        clear hf hl
        induction es with
        | nil => simp at hmem
        | cons f rest2 ih2 =>
          show l ∈ fsAllLines f.2 ++ entsAllLines rest2
          rcases List.mem_cons.mp hmem with hm | hm
          · subst hm
            exact List.mem_append_left _ hsub
          · exact List.mem_append_right _ (ih2 hm)

theorem relComps_comps (rd fp : FPath) :
    ∀ comp ∈ relComps rd fp, comp = ['.', '.'] ∨ comp ∈ fp := by
  induction rd generalizing fp with
  | nil =>
    intro comp hc
    right
    simpa [relComps] using hc
  | cons b bs ih =>
    intro comp hc
    cases fp with
    | nil =>
      left
      have h2 := hc
      simp only [relComps] at h2
      exact List.eq_of_mem_replicate h2
    | cons t ts =>
      simp only [relComps] at hc
      by_cases hbt : b = t
      · rw [if_pos hbt] at hc
        rcases ih ts comp hc with h | h
        · exact Or.inl h
        · exact Or.inr (List.mem_cons_of_mem t h)
      · rw [if_neg hbt] at hc
        rcases List.mem_append.mp hc with h | h
        · exact Or.inl (List.eq_of_mem_replicate h)
        · exact Or.inr h

theorem renderPath_clean (pth : FPath)
    (h : ∀ comp ∈ pth, ∀ c ∈ comp, c ≠ '\n' ∧ c ≠ '\r') :
    ∀ c ∈ renderPath pth, c ≠ '\n' ∧ c ≠ '\r' := by
  induction pth with
  | nil =>
    intro c hc
    simp only [renderPath, List.mem_singleton] at hc
    subst hc
    exact ⟨by decide, by decide⟩
  | cons comp rest ih =>
    intro c hc
    cases rest with
    | nil =>
      exact h comp (List.mem_cons_self _ _) c hc
    | cons comp2 rest2 =>
      show c ≠ '\n' ∧ c ≠ '\r'
      rw [show renderPath (comp :: comp2 :: rest2) =
        comp ++ '/' :: renderPath (comp2 :: rest2) from rfl] at hc
      rcases List.mem_append.mp hc with hcm | hcm
      · exact h comp (List.mem_cons_self _ _) c hcm
      · rcases List.mem_cons.mp hcm with hcm | hcm
        · subst hcm
          exact ⟨by decide, by decide⟩
        · exact ih (fun cp hcp => h cp (List.mem_cons_of_mem _ hcp)) c hcm

theorem lineOK_indent (fs : FSTree) (ind l : Str)
    (hind_ws : ind.all goIsSpace = true) (hind_cr : '\r' ∉ ind) (hind_nl : '\n' ∉ ind)
    (hok : lineOK fs l) : lineOK fs (ind ++ l) := by
  obtain ⟨⟨ind2, core, rfl, hws2, hcore⟩, hcr, hnl⟩ := hok
  refine ⟨⟨ind ++ ind2, core, by simp, ?_, hcore⟩, ?_, ?_⟩
  · rw [List.all_append, hind_ws, hws2]
    rfl
  · intro hmem
    rcases List.mem_append.mp hmem with h | h
    · exact hind_cr h
    · exact hcr h
  · intro hmem
    rcases List.mem_append.mp hmem with h | h
    · exact hind_nl h
    · exact hnl h

theorem indentContent_join (fs : FSTree) (ind : Str) (lsInc : List Str)
    (hind_ws : ind.all goIsSpace = true) (hind_cr : '\r' ∉ ind) (hind_nl : '\n' ∉ ind)
    (hok : ∀ l ∈ lsInc, lineOK fs l) :
    ∃ bls, indentContent ind (joinLinesNL lsInc) = joinLinesNL bls ∧
      ∀ l ∈ bls, lineOK fs l := by
  cases hinc : lsInc with
  | nil => exact ⟨[], rfl, by simp⟩
  | cons a rest =>
    obtain ⟨ll, hll⟩ : ∃ ll, (a :: rest).getLast? = some ll := by
      cases hx : (a :: rest).getLast? with
      | none => exact absurd (List.getLast?_eq_none_iff.mp hx) (by simp)
      | some y => exact ⟨y, rfl⟩
    have hjoin : joinLinesNL (a :: rest) =
        joinLinesNL (a :: rest).dropLast ++ ll ++ ['\n'] :=
      joinLinesNL_concat_last _ ll hll
    have hdropOK : ∀ l ∈ (a :: rest).dropLast, lineOK fs l := by
      intro l hl
      exact hok l (hinc ▸ List.dropLast_subset _ hl)
    have hllOK : lineOK fs ll := hok ll (hinc ▸ List.mem_of_getLast?_eq_some hll)
    have hdropWF : ∀ l ∈ (a :: rest).dropLast, '\n' ∉ l ∧ l.getLast? ≠ some '\r' := by
      intro l hl
      obtain ⟨_, hcr, hnl⟩ := hdropOK l hl
      exact ⟨hnl, fun hc => hcr (List.mem_of_getLast?_eq_some hc)⟩
    simp only [indentContent]
    rw [hjoin, trimSuffix_concat_nl]
    by_cases hc0 : joinLinesNL (a :: rest).dropLast ++ ll = []
    · rw [if_pos hc0]
      exact ⟨[], rfl, by simp⟩
    · rw [if_neg hc0]
      by_cases hlle : ll = []
      · subst hlle
        rw [List.append_nil]
        rw [splitLinesGo_joinLinesNL _ hdropWF]
        refine ⟨((a :: rest).dropLast).map (fun l => ind ++ l), rfl, ?_⟩
        intro l hl
        obtain ⟨m, hm, rfl⟩ := List.mem_map.mp hl
        exact lineOK_indent fs ind m hind_ws hind_cr hind_nl (hdropOK m hm)
      · rw [splitLinesGo_append _ _ ?side]
        case side =>
          cases hd : (a :: rest).dropLast with
          | nil =>
            left
            rfl
          | cons x xs =>
            right
            exact joinLinesNL_getLast _ (by simp)
        rw [splitLinesGo_joinLinesNL _ hdropWF]
        rw [splitLinesGo_no_nl ll hllOK.2.2 hlle
          (fun hc => hllOK.2.1 (List.mem_of_getLast?_eq_some hc))]
        refine ⟨((a :: rest).dropLast ++ [ll]).map (fun l => ind ++ l), by rw [List.map_append], ?_⟩
        intro l hl
        obtain ⟨m, hm, rfl⟩ := List.mem_map.mp hl
        rcases List.mem_append.mp hm with hm | hm
        · exact lineOK_indent fs ind m hind_ws hind_cr hind_nl (hdropOK m hm)
        · rw [List.mem_singleton.mp hm]
          exact lineOK_indent fs ind ll hind_ws hind_cr hind_nl hllOK

theorem lineOK_nil (fs : FSTree) : lineOK fs [] :=
  ⟨⟨[], [], rfl, rfl, Or.inr (Or.inr rfl)⟩, by simp, by simp⟩

theorem processLines_prov (fs : FSTree) (pip : FPath → PRes) (fp : FPath)
    (hpip : ∀ p, ∃ ls, (pip p).1 = joinLinesNL ls ∧ ∀ l ∈ ls, lineOK fs l)
    (lines : List Str)
    (hlines : ∀ line ∈ lines, line ∈ fsAllLines fs ∧ '\r' ∉ line ∧ '\n' ∉ line) :
    ∃ ls, (processLines pip fp lines).1 = joinLinesNL ls ∧ ∀ l ∈ ls, lineOK fs l := by
  induction lines with
  | nil => exact ⟨[], rfl, by simp⟩
  | cons line rest ih =>
    have hrestlines : ∀ l ∈ rest, l ∈ fsAllLines fs ∧ '\r' ∉ l ∧ '\n' ∉ l :=
      fun l hl => hlines l (List.mem_cons_of_mem _ hl)
    obtain ⟨hmem, hcr, hnl⟩ := hlines line (List.mem_cons_self line rest)
    obtain ⟨lsR, hR, hRok⟩ := ih hrestlines
    by_cases hdir : startsWithL includeMarker (goTrimSpaceL line) = true
    · by_cases hemp : goTrimSpaceL (trimPrefixL includeMarker (goTrimSpaceL line)) = []
      · rw [processLines_cons_dir_empty pip fp line rest hdir hemp]
        exact ⟨lsR, hR, hRok⟩
      · rcases hp : pip (goJoin fp.dropLast
            (goTrimSpaceL (trimPrefixL includeMarker (goTrimSpaceL line)))) with ⟨c, oe⟩
        cases oe with
        | some e =>
          rw [processLines_cons_dir_err pip fp line rest c e hdir hemp hp]
          exact ⟨[], rfl, by simp⟩
        | none =>
          rcases hr : processLines pip fp rest with ⟨r, roe⟩
          cases roe with
          | some e2 =>
            rw [processLines_cons_dir_err2 pip fp line rest c r e2 hdir hemp hp hr]
            exact ⟨[], rfl, by simp⟩
          | none =>
            rw [processLines_cons_dir_ok pip fp line rest c r hdir hemp hp hr]
            obtain ⟨lsI, hI, hIok⟩ := hpip (goJoin fp.dropLast
              (goTrimSpaceL (trimPrefixL includeMarker (goTrimSpaceL line))))
            have hIc : c = joinLinesNL lsI := by rw [← hI, hp]
            have hRc : r = joinLinesNL lsR := by rw [← hR, hr]
            obtain ⟨hge, hcap, hws⟩ := directive_capture line hdir
            have hcap_cr : '\r' ∉ captureIndent line := by
              rw [hcap]
              intro hc
              exact hcr ((List.takeWhile_prefix _).subset hc)
            have hcap_nl : '\n' ∉ captureIndent line := by
              rw [hcap]
              intro hc
              exact hnl ((List.takeWhile_prefix _).subset hc)
            obtain ⟨bls, hB, hBok⟩ :=
              indentContent_join fs (captureIndent line) lsI hws hcap_cr hcap_nl hIok
            refine ⟨bls ++ [] :: lsR, ?_, ?_⟩
            · show indentContent (captureIndent line) c ++ '\n' :: r =
                joinLinesNL (bls ++ [] :: lsR)
              rw [hIc, hB, hRc, joinLinesNL_append]
              rfl
            · intro l hl
              rcases List.mem_append.mp hl with h | h
              · exact hBok l h
              · rcases List.mem_cons.mp h with h | h
                · rw [h]
                  exact lineOK_nil fs
                · exact hRok l h
    · have hdf : startsWithL includeMarker (goTrimSpaceL line) = false :=
        Bool.eq_false_iff.mpr hdir
      rcases hr : processLines pip fp rest with ⟨r, roe⟩
      cases roe with
      | some e =>
        rw [processLines_cons_plain_err pip fp line rest r e hdf hr]
        exact ⟨[], rfl, by simp⟩
      | none =>
        rw [processLines_cons_plain pip fp line rest r hdf hr]
        have hRc : r = joinLinesNL lsR := by rw [← hR, hr]
        refine ⟨line :: lsR, ?_, ?_⟩
        · show line ++ '\n' :: r = joinLinesNL (line :: lsR)
          rw [hRc]
          rfl
        · intro l hl
          rcases List.mem_cons.mp hl with h | h
          · rw [h]
            exact ⟨⟨[], line, rfl, rfl, Or.inl hmem⟩, hcr, hnl⟩
          · exact hRok l h

theorem processFileCore_prov (pip : FPath → PRes) (fs : FSTree) (fp rd : FPath)
    (ir : Bool) (hwf : fsWF fs = true)
    (hpip : ∀ p, ∃ ls, (pip p).1 = joinLinesNL ls ∧ ∀ l ∈ ls, lineOK fs l) :
    ∃ ls, (processFileCore pip fs fp rd ir).1 = joinLinesNL ls ∧
      ∀ l ∈ ls, lineOK fs l := by
  cases hl : lookupFS fs fp with
  | none =>
    rw [processFileCore_none pip fs fp rd ir hl]
    exact ⟨[], rfl, by simp⟩
  | some t =>
    cases t with
    | dir es =>
      rw [processFileCore_dir pip fs fp rd ir es hl]
      exact ⟨[], rfl, by simp⟩
    | file content =>
      obtain ⟨hwft, hcomps⟩ := lookup_wf fp fs (.file content) hwf hl
      have hcontent_cr : ∀ c ∈ content, c ≠ '\r' := by
        intro c hc
        have h1 : content.all (fun ch => ch != '\r') = true := hwft
        have h2 := List.all_eq_true.mp h1 c hc
        simpa using h2
      have hlines : ∀ line ∈ splitLinesGo content,
          line ∈ fsAllLines fs ∧ '\r' ∉ line ∧ '\n' ∉ line := by
        intro line hline
        refine ⟨lookup_file_lines fp fs content hl line hline, ?_,
          mem_splitLinesGo_not_nl content line hline⟩
        intro hc
        exact hcontent_cr '\r' (mem_chars_splitLinesGo content line hline '\r' hc) rfl
      obtain ⟨lsB, hB, hBok⟩ :=
        processLines_prov fs pip fp hpip (splitLinesGo content) hlines
      rcases hpl : processLines pip fp (splitLinesGo content) with ⟨body, oe⟩
      cases oe with
      | some e =>
        rw [processFileCore_file_err pip fs fp rd ir content body e hl hpl]
        exact ⟨[], rfl, by simp⟩
      | none =>
        have hBc : body = joinLinesNL lsB := by rw [← hB, hpl]
        cases ir with
        | true =>
          rw [processFileCore_file_root pip fs fp rd content body hl hpl]
          exact ⟨lsB, hBc, hBok⟩
        | false =>
          rw [processFileCore_file_nonroot pip fs fp rd content body hl hpl]
          have hrclean : ∀ c ∈ renderPath (relComps rd fp), c ≠ '\n' ∧ c ≠ '\r' := by
            apply renderPath_clean
            intro comp hcomp c hc
            rcases relComps_comps rd fp comp hcomp with h | h
            · subst h
              simp at hc
              subst hc
              exact ⟨by decide, by decide⟩
            · exact hcomps comp h c hc
          have hstart_ok : lineOK fs (startMarkPre ++ renderPath (relComps rd fp)) := by
            refine ⟨⟨[], startMarkPre ++ renderPath (relComps rd fp), rfl, rfl,
              Or.inr (Or.inl ⟨renderPath (relComps rd fp), Or.inl rfl⟩)⟩, ?_, ?_⟩
            · intro hc
              rcases List.mem_append.mp hc with h | h
              · exact absurd h (by decide)
              · exact (hrclean _ h).2 rfl
            · intro hc
              rcases List.mem_append.mp hc with h | h
              · exact absurd h (by decide)
              · exact (hrclean _ h).1 rfl
          have hend_ok : lineOK fs (endMarkPre ++ renderPath (relComps rd fp)) := by
            refine ⟨⟨[], endMarkPre ++ renderPath (relComps rd fp), rfl, rfl,
              Or.inr (Or.inl ⟨renderPath (relComps rd fp), Or.inr rfl⟩)⟩, ?_, ?_⟩
            · intro hc
              rcases List.mem_append.mp hc with h | h
              · exact absurd h (by decide)
              · exact (hrclean _ h).2 rfl
            · intro hc
              rcases List.mem_append.mp hc with h | h
              · exact absurd h (by decide)
              · exact (hrclean _ h).1 rfl
          obtain ⟨core, k, hdecomp, hlast⟩ :=
            exists_core_repl ((startMarkPre ++ renderPath (relComps rd fp)) :: lsB)
          have hcore_ok : ∀ l ∈ core, lineOK fs l := by
            intro l hl2
            have hsub : l ∈ (startMarkPre ++ renderPath (relComps rd fp)) :: lsB := by
              rw [hdecomp]
              exact List.mem_append_left _ hl2
            rcases List.mem_cons.mp hsub with h | h
            · rw [h]
              exact hstart_ok
            · exact hBok l h
          have hcore_ne : core ≠ [] := by
            intro hc
            rw [hc, List.nil_append] at hdecomp
            have hmem2 := List.mem_cons_self
              (startMarkPre ++ renderPath (relComps rd fp)) lsB
            rw [hdecomp] at hmem2
            have h0 := List.eq_of_mem_replicate hmem2
            exact absurd (List.append_eq_nil.mp h0).1 (by decide)
          obtain ⟨ll, hll⟩ : ∃ ll, core.getLast? = some ll := by
            cases hx : core.getLast? with
            | none => exact absurd (List.getLast?_eq_none_iff.mp hx) hcore_ne
            | some y => exact ⟨y, rfl⟩
          have hll_ne : ll ≠ [] := fun hc => hlast (hc ▸ hll)
          have hll_ok : lineOK fs ll := hcore_ok ll (List.mem_of_getLast?_eq_some hll)
          have hjoin1 : markerStartLine (relComps rd fp) ++ joinLinesNL lsB =
              joinLinesNL ((startMarkPre ++ renderPath (relComps rd fp)) :: lsB) := by
            show ((startMarkPre ++ renderPath (relComps rd fp)) ++ ['\n']) ++
                joinLinesNL lsB =
              (startMarkPre ++ renderPath (relComps rd fp)) ++ '\n' :: joinLinesNL lsB
            rw [List.append_assoc, List.singleton_append]
          have hjoin2 :
              joinLinesNL ((startMarkPre ++ renderPath (relComps rd fp)) :: lsB) =
              (joinLinesNL core.dropLast ++ ll) ++ List.replicate (k + 1) '\n' := by
            rw [hdecomp, joinLinesNL_append, joinLinesNL_replicate_nil,
              joinLinesNL_concat_last core ll hll, List.append_assoc,
              List.replicate_succ, List.singleton_append]
          have hll_last : (joinLinesNL core.dropLast ++ ll).getLast? ≠ some '\n' := by
            have h0 : (joinLinesNL core.dropLast ++ ll).getLast? = ll.getLast? := by
              rw [List.getLast?_append]
              cases hx : ll.getLast? with
              | none => exact absurd (List.getLast?_eq_none_iff.mp hx) hll_ne
              | some y => rfl
            rw [h0]
            intro hc
            exact hll_ok.2.2 (List.mem_of_getLast?_eq_some hc)
          refine ⟨core.dropLast ++ [ll, endMarkPre ++ renderPath (relComps rd fp)],
            ?_, ?_⟩
          · show trimRightNL (markerStartLine (relComps rd fp) ++ body) ++
                markerEndTail (relComps rd fp) = _
            rw [hBc, hjoin1, hjoin2, trimRight_append_repl _ (k + 1) hll_last,
              joinLinesNL_append, List.append_assoc]
            congr 1
          · intro l hl2
            rcases List.mem_append.mp hl2 with h | h
            · exact hcore_ok l (List.dropLast_subset _ h)
            · rcases List.mem_cons.mp h with h | h
              · rw [h]
                exact hll_ok
              · rw [List.mem_singleton.mp h]
                exact hend_ok

theorem processWalk_prov (fs : FSTree) (pf : FPath → PRes)
    (hpf : ∀ p, ∃ ls, (pf p).1 = joinLinesNL ls ∧ ∀ l ∈ ls, lineOK fs l)
    (paths : List FPath) :
    ∃ ls, (processWalk pf paths).1 = joinLinesNL ls ∧ ∀ l ∈ ls, lineOK fs l := by
  induction paths with
  | nil => exact ⟨[], rfl, by simp⟩
  | cons p rest ih =>
    obtain ⟨ls1, h1, h1ok⟩ := hpf p
    obtain ⟨ls2, h2, h2ok⟩ := ih
    rcases hp : pf p with ⟨c, oe⟩
    cases oe with
    | some e =>
      simp only [processWalk, hp]
      exact ⟨[], rfl, by simp⟩
    | none =>
      rcases hr : processWalk pf rest with ⟨r, roe⟩
      cases roe with
      | some e2 =>
        simp only [processWalk, hp, hr]
        exact ⟨[], rfl, by simp⟩
      | none =>
        simp only [processWalk, hp, hr]
        have hc : c = joinLinesNL ls1 := by rw [← h1, hp]
        have hrr : r = joinLinesNL ls2 := by rw [← h2, hr]
        refine ⟨ls1 ++ ls2, ?_, ?_⟩
        · show c ++ r = joinLinesNL (ls1 ++ ls2)
          rw [hc, hrr, joinLinesNL_append]
        · intro l hl
          rcases List.mem_append.mp hl with h | h
          · exact h1ok l h
          · exact h2ok l h

theorem processIncludePathCore_prov (fs : FSTree) (pf : FPath → PRes) (p : FPath)
    (hpf : ∀ q, ∃ ls, (pf q).1 = joinLinesNL ls ∧ ∀ l ∈ ls, lineOK fs l) :
    ∃ ls, (processIncludePathCore pf fs p).1 = joinLinesNL ls ∧
      ∀ l ∈ ls, lineOK fs l := by
  cases hl : lookupFS fs p with
  | none =>
    rw [processIncludePathCore_none pf fs p hl]
    exact ⟨[], rfl, by simp⟩
  | some t =>
    cases t with
    | file content =>
      rw [processIncludePathCore_file pf fs p content hl]
      exact hpf p
    | dir es =>
      rw [processIncludePathCore_dir pf fs p es hl]
      exact processWalk_prov fs pf hpf (walkCollect (.dir es) p)

theorem processFile_prov (fs : FSTree) (hwf : fsWF fs = true) :
    ∀ fuel fp rd ir, ∃ ls, (processFile fs fuel fp rd ir).1 = joinLinesNL ls ∧
      ∀ l ∈ ls, lineOK fs l := by
  intro fuel
  induction fuel with
  | zero =>
    intro fp rd ir
    exact ⟨[], rfl, by simp⟩
  | succ n ih =>
    intro fp rd ir
    rw [processFile_succ]
    apply processFileCore_prov _ fs fp rd ir hwf
    intro p
    apply processIncludePathCore_prov fs _ p
    intro q
    exact ih q rd false

/-- **C3** (counterexample): the claim that every output line corresponds to
an input line or a generated marker line fails on a concrete run: expanding
the root file `x\n#include: f.txt\n` (where `f.txt` holds `a\n`) produces the
blank separator line that main.go line 84 appends after every include block,
and that blank line is neither an (indented) input line nor an (indented)
marker line. -/
theorem claim_C3_counterexample :
    linesAccounted exAccountFS (processFile exAccountFS 3 [['r']] [] true).1 =
      false := by
  decide

/-- **C3** (amended): line provenance of the expansion output.  For every
well-formed filesystem (carriage-return-free file contents, entry names free
of newline and carriage return), every fuel bound, file path, root directory
and root flag, every line of the text returned by `processFile` has a
provenance: it is an accumulated-whitespace-indented input line of the tree,
an indented `# START `/`# END ` marker line, or a generated blank separator
line.  This is the correct form of the line-accounting invariant: besides
markers the code also invents blank separator lines, and it drops directive
lines and the trailing blank lines of an included file. -/
theorem claim_C3_line_provenance_amended (fs : FSTree) (fuel : Nat)
    (fp rd : FPath) (ir : Bool) (hwf : fsWF fs = true) :
    ∀ l ∈ splitLinesGo (processFile fs fuel fp rd ir).1, provLine fs l := by
  obtain ⟨ls, heq, hok⟩ := processFile_prov fs hwf fuel fp rd ir
  intro l hl
  rw [heq] at hl
  rw [splitLinesGo_joinLinesNL ls ?hwfls] at hl
  case hwfls =>
    intro m hm
    obtain ⟨_, hcr, hnl⟩ := hok m hm
    exact ⟨hnl, fun hc => hcr (List.mem_of_getLast?_eq_some hc)⟩
  exact (hok l hl).1

/-- Witness for **C3**: on the concrete tree of the counterexample the
amended theorem applies, and yields a provenance for the output line `x`. -/
theorem claim_C3_line_provenance_amended_witness :
    provLine exAccountFS (['x'] : Str) :=
  claim_C3_line_provenance_amended exAccountFS 3 [['r']] [] true (by decide)
    ['x'] (by decide)
